import Mathlib

set_option maxHeartbeats 1000000

/-!
Verification of the Soniox STT connector
(`src/Task-1/websocket/server/processors/soniox_stt.py`).

The definitions below are a shallow embedding of the connector's pure core:
the token renderer `_render_tokens`, the sanitizer `_clean_transcription`
(whose `re.sub` passes are embedded as explicit leftmost non-overlapping
scanners for the concrete patterns used in the source), the token-batch merge
performed by `_receive_loop`, the configuration builder `_get_config`, and
the event-level state machine of `process_frame`.
-/

namespace Soniox

/-- ASCII whitespace as treated by Python's `str.split` / `str.strip` and the
regex class `\s`: space, tab, newline, carriage return, vertical tab, form
feed. -/
def isPyS (c : Char) : Bool :=
  c.toNat = 32 || c.toNat = 9 || c.toNat = 10 || c.toNat = 13 || c.toNat = 11 || c.toNat = 12

/-- ASCII digit, the regex class `\d`. -/
def isPyDigit (c : Char) : Bool := 48 ≤ c.toNat && c.toNat ≤ 57

/-- ASCII lowercase letter, the regex class `[a-z]`. -/
def isAsciiLower (c : Char) : Bool := 97 ≤ c.toNat && c.toNat ≤ 122

/-- Python `str.lstrip()` on a character list. -/
def pyLStripChars (l : List Char) : List Char := l.dropWhile isPyS

/-- Python `str.strip()` on a character list. -/
def pyStripChars (l : List Char) : List Char :=
  ((l.dropWhile isPyS).reverse.dropWhile isPyS).reverse

/-- Python `str.lstrip()`. -/
def pyLStrip (s : String) : String := String.mk (pyLStripChars s.data)

/-- Python `str.strip()`. -/
def pyStrip (s : String) : String := String.mk (pyStripChars s.data)

/-- A recognition token as delivered by the remote service: the fields read
by the connector (`token.get("text", "")`, `token.get("is_final")`,
`token.get("speaker")`, `token.get("language")`,
`token.get("translation_status")`).  An absent `text` is the empty string. -/
structure Token where
  text : String := ""
  is_final : Bool := false
  speaker : Option String := none
  language : Option String := none
  translation_status : Option String := none
deriving DecidableEq

/-- Python truthiness of `token.get("text")`. -/
def hasText (t : Token) : Bool := t.text ≠ ""

/-- The speaker-change handling of the token loop in
`SonioxSTTService._render_tokens` (lines 204-210 of the source): the emitted
marker text (if any) and the updated `current_speaker` / `current_language`
running values. -/
def speakerPart (t : Token) (curSpk curLang : Option String) :
    String × Option String × Option String :=
  match t.speaker with
  | some s =>
    if some s ≠ curSpk then
      ((if curSpk = none then "" else "\n\n") ++ "Speaker " ++ s ++ ":", some s, none)
    else ("", curSpk, curLang)
  | none => ("", curSpk, curLang)

/-- One iteration of the token loop in `SonioxSTTService._render_tokens`
(lines 195-219 of the source), for a token whose text is non-empty: the text
emitted for this token together with the updated `current_speaker` and
`current_language` running values. -/
def renderStep (t : Token) (curSpk curLang : Option String) :
    String × Option String × Option String :=
  let sp := speakerPart t curSpk curLang
  match t.language with
  | some lg =>
    if some lg ≠ sp.2.2 then
      (sp.1 ++ "\n" ++ (if t.translation_status = some "translation" then "[Translation] " else "")
        ++ "[" ++ lg ++ "] " ++ pyLStrip t.text, sp.2.1, some lg)
    else (sp.1 ++ t.text, sp.2.1, sp.2.2)
  | none => (sp.1 ++ t.text, sp.2.1, sp.2.2)

/-- The token loop of `_render_tokens`: processes the tokens in order,
skipping tokens with empty text, threading the `current_speaker` and
`current_language` running values, and concatenating the emitted parts. -/
def renderAux : List Token → Option String → Option String →
    String × Option String × Option String
  | [], curSpk, curLang => ("", curSpk, curLang)
  | t :: rest, curSpk, curLang =>
    if t.text = "" then renderAux rest curSpk curLang
    else
      let r := renderStep t curSpk curLang
      let r2 := renderAux rest r.2.1 r.2.2
      (r.1 ++ r2.1, r2.2)

/-- `SonioxSTTService._render_tokens` (lines 188-221): renders
`final_tokens + non_final_tokens` with fresh running speaker/language. -/
def _render_tokens (final_tokens non_final_tokens : List Token) : String :=
  (renderAux (final_tokens ++ non_final_tokens) none none).1

/-- Matches a literal character list at the head of the input, returning the
remainder of the input on success. -/
def matchLit : List Char → List Char → Option (List Char)
  | [], l => some l
  | _ :: _, [] => none
  | p :: ps, c :: cs => if c = p then matchLit ps cs else none

/-- The characters of the literal `Speaker`. -/
def speakerLit : List Char := ['S', 'p', 'e', 'a', 'k', 'e', 'r']

/-- The characters of the literal `[Translation]`. -/
def translationLit : List Char :=
  ['[', 'T', 'r', 'a', 'n', 's', 'l', 'a', 't', 'i', 'o', 'n', ']']

/-- The characters of the literal `<end>`. -/
def endLit : List Char := ['<', 'e', 'n', 'd', '>']

/-- Length of the match of the regex `Speaker\s+\d+:\s*` at the head of the
input, if any.  For this pattern greedy matching of each piece agrees with
Python's backtracking semantics, because `\s`, `\d` and `:` are pairwise
disjoint character classes. -/
def speakerMatchLen (l : List Char) : Option Nat :=
  match matchLit speakerLit l with
  | none => none
  | some r1 =>
    let sp := r1.takeWhile isPyS
    if sp.length = 0 then none
    else
      let r2 := r1.drop sp.length
      let dg := r2.takeWhile isPyDigit
      if dg.length = 0 then none
      else
        match r2.drop dg.length with
        | ':' :: r3 => some (7 + sp.length + dg.length + 1 + (r3.takeWhile isPyS).length)
        | _ => none

/-- Length of the match of the regex `\[Translation\]\s*` at the head of the
input, if any. -/
def translationMatchLen (l : List Char) : Option Nat :=
  match matchLit translationLit l with
  | none => none
  | some r => some (13 + (r.takeWhile isPyS).length)

/-- Length of the match of the regex `\[[a-z]{2}\]\s*` at the head of the
input, if any. -/
def langTagMatchLen : List Char → Option Nat
  | '[' :: a :: b :: ']' :: r =>
    if isAsciiLower a && isAsciiLower b then some (4 + (r.takeWhile isPyS).length) else none
  | _ => none

/-- Length of the match of the regex `<end>` at the head of the input. -/
def endMatchLen (l : List Char) : Option Nat :=
  match matchLit endLit l with
  | none => none
  | some _ => some 5

/-- Fueled core of `re.sub(pattern, '', text)`: scans left to right; at each
position either removes a match of the pattern (as measured by `m`) and
resumes after it, or keeps the character and advances.  The fuel only serves
termination; `subAll` below always supplies enough. -/
def subAllF (m : List Char → Option Nat) : Nat → List Char → List Char
  | _, [] => []
  | 0, l => l
  | fuel + 1, c :: rest =>
    match m (c :: rest) with
    | some n => subAllF m fuel (rest.drop (n - 1))
    | none => c :: subAllF m fuel rest

/-- `re.sub(pattern, '', text)`: removes every leftmost non-overlapping match
of the pattern measured by `m`. -/
def subAll (m : List Char → Option Nat) (l : List Char) : List Char :=
  subAllF m l.length l

/-- Python `str.split()` (split on whitespace runs, dropping empty words);
`acc` holds the reversed current word. -/
def pySplitAux : List Char → List Char → List (List Char)
  | [], acc => if acc = [] then [] else [acc.reverse]
  | c :: rest, acc =>
    if isPyS c then
      if acc = [] then pySplitAux rest [] else acc.reverse :: pySplitAux rest []
    else pySplitAux rest (c :: acc)

/-- `" ".join(words)`. -/
def joinWords : List (List Char) → List Char
  | [] => []
  | [w] => w
  | w :: ws => w ++ ' ' :: joinWords ws

/-- `SonioxSTTService._clean_transcription` (lines 223-234): removes speaker
markers, translation markers, two-letter language tags and `<end>` residue,
then collapses whitespace (`" ".join(text.split())`) and strips. -/
def _clean_transcription (text : String) : String :=
  let l1 := subAll speakerMatchLen text.data
  let l2 := subAll translationMatchLen l1
  let l3 := subAll langTagMatchLen l2
  let l4 := subAll endMatchLen l3
  String.mk (pyStripChars (joinWords (pySplitAux l4 [])))

/-- The token-splitting loop of `_receive_loop` (lines 264-278): partitions
one inbound batch into its new final tokens and its non-final tokens, in
order, skipping tokens with empty or absent text. -/
def splitBatch : List Token → List Token × List Token
  | [] => ([], [])
  | t :: rest =>
    let r := splitBatch rest
    if t.text = "" then r
    else if t.is_final then (t :: r.1, r.2)
    else (r.1, t :: r.2)

/-- The connector state observed by `process_frame` and `_receive_loop`:
whether a websocket handle is present, whether the user is speaking, and the
two token buffers of the utterance accumulator. -/
structure STState where
  websocket : Bool
  is_speaking : Bool
  final_tokens : List Token
  last_non_final_tokens : List Token
deriving DecidableEq

/-- Merging one inbound token batch into the accumulator (lines 264-281):
new final tokens are appended to `final_tokens`; the non-final buffer is
replaced by the batch's non-final tokens. -/
def mergeBatch (st : STState) (batch : List Token) : STState :=
  { st with
    final_tokens := st.final_tokens ++ (splitBatch batch).1
    last_non_final_tokens := (splitBatch batch).2 }

/-- The transcript selection of the stop branch of `process_frame`
(lines 345-356): the final buffer is preferred, the non-final buffer is the
degraded fallback, otherwise no transcript is produced. -/
def textToSend (st : STState) : Option String :=
  if st.final_tokens ≠ [] then
    some (_clean_transcription (_render_tokens st.final_tokens []))
  else if st.last_non_final_tokens ≠ [] then
    some (_clean_transcription (_render_tokens [] st.last_non_final_tokens))
  else none

/-- Result of the underlying websocket send of one audio chunk. -/
inductive SendRes
  | ok
  | closedErr
  | otherErr
deriving DecidableEq

/-- Events driving the connector: the boundary frames handled by
`process_frame`, an inbound token batch or remote error handled by
`_receive_loop`, and one audio chunk (tagged with how the underlying send
behaves).  `speechStart` carries whether a reconnection attempt would
succeed. -/
inductive Ev
  | speechStart (netOk : Bool)
  | speechStop
  | audio (res : SendRes)
  | batch (tokens : List Token)
  | remoteError
deriving DecidableEq

/-- Frames and notices pushed downstream by the connector. -/
inductive OutEv
  | startedFrame
  | stoppedFrame
  | audioFrame
  | transcription (text : String)
  | llmRun
  | errorNotice
deriving DecidableEq

/-- One step of the connector: the state update and the list of downstream
events, in order, translated from `process_frame` (lines 310-403) and the
error branch of `_receive_loop` (lines 244-257). -/
def stepEv (st : STState) : Ev → STState × List OutEv
  | .speechStart netOk =>
    ({ websocket := if st.websocket then true else netOk
       is_speaking := true
       final_tokens := []
       last_non_final_tokens := [] }, [.startedFrame])
  | .speechStop =>
    let outs : List OutEv :=
      match textToSend st with
      | some t => if t ≠ "" ∧ pyStrip t ≠ "" then [.transcription (pyStrip t), .llmRun] else []
      | none => []
    ({ websocket := st.websocket
       is_speaking := false
       final_tokens := []
       last_non_final_tokens := [] }, outs ++ [.stoppedFrame])
  | .audio res =>
    if st.websocket ∧ st.is_speaking then
      match res with
      | .closedErr => ({ st with websocket := false, is_speaking := false }, [.audioFrame])
      | _ => (st, [.audioFrame])
    else (st, [.audioFrame])
  | .batch tokens =>
    if st.websocket then (mergeBatch st tokens, []) else (st, [])
  | .remoteError =>
    if st.websocket then
      ({ st with websocket := false, is_speaking := false }, [.errorNotice])
    else (st, [])

/-- Runs a sequence of events, collecting all downstream events in order. -/
def runTrace (st : STState) : List Ev → STState × List OutEv
  | [] => (st, [])
  | e :: es =>
    let r := stepEv st e
    let r2 := runTrace r.1 es
    (r2.1, r.2 ++ r2.2)

/-- The connector state right after a successful `start`: connected, not
speaking, empty buffers. -/
def initState : STState :=
  { websocket := true, is_speaking := false, final_tokens := [], last_non_final_tokens := [] }

/-- A JSON-like configuration value. -/
inductive CVal
  | s (v : String)
  | b (v : Bool)
  | n (v : Nat)
  | ls (v : List String)
  | dict (v : List (String × String))
deriving DecidableEq

/-- The constructor parameters of `SonioxSTTService` that `_get_config`
reads.  `context` and `translation` are optional dictionaries (Python
truthiness: absent or empty means falsy). -/
structure SonioxParams where
  api_key : String
  model : String := "stt-rt-v3"
  sample_rate : Nat := 16000
  audio_format : String := "auto"
  channels : Nat := 1
  language_hints : List String := ["en"]
  enable_language_identification : Bool := true
  enable_speaker_diarization : Bool := true
  enable_endpoint_detection : Bool := true
  context : Option (List (String × String)) := none
  translation : Option (List (String × String)) := none
deriving DecidableEq

/-- Python truthiness of an optional dictionary. -/
def optDictTruthy : Option (List (String × String)) → Bool
  | none => false
  | some d => d ≠ []

/-- `config["context"] / config["translation"]`: an optional dictionary is
added under its key only when truthy (`if self._context:`). -/
def optChunk (key : String) : Option (List (String × String)) → List (String × CVal)
  | some d => if d ≠ [] then [(key, .dict d)] else []
  | none => []

/-- The audio-format fields of `_get_config` (lines 91-104). -/
def audioChunk (p : SonioxParams) : List (String × CVal) :=
  if p.audio_format = "auto" then
    [("audio_format", .s "auto")]
  else if p.audio_format = "pcm_s16le" ∨ p.audio_format = "s16le" then
    [("audio_format", .s "pcm_s16le"),
     ("sample_rate", .n p.sample_rate),
     ("num_channels", .n p.channels)]
  else
    [("audio_format", .s p.audio_format)]
    ++ (if p.sample_rate ≠ 0 then [("sample_rate", .n p.sample_rate)] else [])
    ++ (if p.channels ≠ 0 then [("num_channels", .n p.channels)] else [])

/-- The six unconditional fields of `_get_config` (lines 78-85). -/
def baseChunk (p : SonioxParams) : List (String × CVal) :=
  [("api_key", .s p.api_key),
   ("model", .s p.model),
   ("language_hints", .ls p.language_hints),
   ("enable_language_identification", .b p.enable_language_identification),
   ("enable_speaker_diarization", .b p.enable_speaker_diarization),
   ("enable_endpoint_detection", .b p.enable_endpoint_detection)]

/-- `SonioxSTTService._get_config` (lines 76-110): the handshake record, as
an association list in insertion order. -/
def _get_config (p : SonioxParams) : List (String × CVal) :=
  baseChunk p
  ++ optChunk "context" p.context
  ++ audioChunk p
  ++ optChunk "translation" p.translation

/-- First value bound to a key in the configuration record. -/
def cfgGet (k : String) : List (String × CVal) → Option CVal
  | [] => none
  | kv :: rest => if kv.1 = k then some kv.2 else cfgGet k rest

/-- Whether the pattern measured by `m` matches at some position of `l`
(i.e. `l` has a substring matching the pattern). -/
def hasMatch (m : List Char → Option Nat) : List Char → Bool
  | [] => (m []).isSome
  | c :: rest => (m (c :: rest)).isSome || hasMatch m rest

/-- Every whitespace character of `l` is a single space, not followed by
whitespace and not at the end of `l`. -/
def wsRunOk : List Char → Bool
  | [] => true
  | c :: rest =>
    if isPyS c then
      (c = ' ') && (match rest with | [] => false | d :: _ => !isPyS d) && wsRunOk rest
    else wsRunOk rest

/-- Internal whitespace collapsed to single spaces and no leading or trailing
whitespace. -/
def collapsedOk (l : List Char) : Bool :=
  (match l with | [] => true | c :: _ => !isPyS c) && wsRunOk l

/-- A character that cannot contribute to re-forming a `Speaker N:` marker or
a bracketed tag: not a colon, not a capital S, not an opening bracket. -/
def SafeTextChar (c : Char) : Prop := c ≠ ':' ∧ c ≠ 'S' ∧ c ≠ '['

/-- A speaker id as produced by diarization: a non-empty digit string. -/
def GoodSpeaker : Option String → Prop
  | some s => s.data ≠ [] ∧ ∀ c ∈ s.data, isPyDigit c = true
  | none => True

/-- A language id as produced by language identification: a two-letter
lowercase code. -/
def GoodLanguage : Option String → Prop
  | some lg => lg.data.length = 2 ∧ ∀ c ∈ lg.data, isAsciiLower c = true
  | none => True

/-- A token whose metadata has the shapes produced by the remote service and
whose text cannot re-form marker patterns: its speaker (if any) is a
non-empty digit string, its language (if any) is a two-letter lowercase code,
and its text contains no colon, capital S or opening bracket. -/
def GoodToken (t : Token) : Prop :=
  (∀ c ∈ t.text.data, SafeTextChar c) ∧ GoodSpeaker t.speaker ∧ GoodLanguage t.language

instance (c : Char) : Decidable (SafeTextChar c) :=
  inferInstanceAs (Decidable (c ≠ ':' ∧ c ≠ 'S' ∧ c ≠ '['))

instance (o : Option String) : Decidable (GoodSpeaker o) :=
  match o with
  | none => isTrue trivial
  | some s => inferInstanceAs (Decidable (s.data ≠ [] ∧ ∀ c ∈ s.data, isPyDigit c = true))

instance (o : Option String) : Decidable (GoodLanguage o) :=
  match o with
  | none => isTrue trivial
  | some lg =>
    inferInstanceAs (Decidable (lg.data.length = 2 ∧ ∀ c ∈ lg.data, isAsciiLower c = true))

instance (t : Token) : Decidable (GoodToken t) :=
  inferInstanceAs (Decidable ((∀ c ∈ t.text.data, SafeTextChar c) ∧
    GoodSpeaker t.speaker ∧ GoodLanguage t.language))

/-- Grammar of strings rendered from good tokens: safe characters, speaker
markers `Speaker <digits>:`, `[Translation]` literals and two-letter
bracketed tags. -/
inductive RGram : List Char → Prop
  | nil : RGram []
  | ch : ∀ c l, c ≠ ':' → c ≠ 'S' → c ≠ '[' → RGram l → RGram (c :: l)
  | marker : ∀ d l, d ≠ [] → (∀ c ∈ d, isPyDigit c = true) → RGram l →
      RGram ('S' :: 'p' :: 'e' :: 'a' :: 'k' :: 'e' :: 'r' :: ' ' :: (d ++ ':' :: l))
  | ttag : ∀ l, RGram l → RGram (translationLit ++ l)
  | ltag : ∀ a b l, isAsciiLower a = true → isAsciiLower b = true → RGram l →
      RGram ('[' :: a :: b :: ']' :: l)

/-- Grammar after the speaker-marker removal pass: no colons and no capital
S outside literals; brackets only in `[Translation]` literals and two-letter
tags. -/
inductive G2 : List Char → Prop
  | nil : G2 []
  | ch : ∀ c l, c ≠ ':' → c ≠ '[' → G2 l → G2 (c :: l)
  | ttag : ∀ l, G2 l → G2 (translationLit ++ l)
  | ltag : ∀ a b l, isAsciiLower a = true → isAsciiLower b = true → G2 l →
      G2 ('[' :: a :: b :: ']' :: l)

/-- Grammar after the translation-marker removal pass: no colons; brackets
only in two-letter tags. -/
inductive G3 : List Char → Prop
  | nil : G3 []
  | ch : ∀ c l, c ≠ ':' → c ≠ '[' → G3 l → G3 (c :: l)
  | ltag : ∀ a b l, isAsciiLower a = true → isAsciiLower b = true → G3 l →
      G3 ('[' :: a :: b :: ']' :: l)

end Soniox

namespace Soniox

theorem str_data_append (s t : String) : (s ++ t).data = s.data ++ t.data := rfl

theorem str_empty_append (s : String) : "" ++ s = s := rfl

theorem str_eq_empty_iff (s : String) : s = "" ↔ s.data = [] := by
  constructor
  · intro h
    rw [h]
  · intro h
    cases s with
    | mk d =>
      cases h
      rfl

theorem str_ne_empty_iff (s : String) : s ≠ "" ↔ s.data ≠ [] :=
  not_congr (str_eq_empty_iff s)

theorem str_append_assoc (a b c : String) : (a ++ b) ++ c = a ++ (b ++ c) := by
  cases a with
  | mk x =>
    cases b with
    | mk y =>
      cases c with
      | mk z => exact congrArg String.mk (List.append_assoc x y z)

theorem str_append_ne_left {s : String} (t : String) (h : s ≠ "") : s ++ t ≠ "" := by
  rw [str_ne_empty_iff] at h ⊢
  rw [str_data_append]
  simp [h]

theorem str_append_ne_right (s : String) {t : String} (h : t ≠ "") : s ++ t ≠ "" := by
  rw [str_ne_empty_iff] at h ⊢
  rw [str_data_append]
  simp [h]

theorem renderStep_ne (t : Token) (curSpk curLang : Option String) (h : t.text ≠ "") :
    (renderStep t curSpk curLang).1 ≠ "" := by
  rw [renderStep]
  generalize speakerPart t curSpk curLang = sp
  rcases hl : t.language with _ | lg
  · exact str_append_ne_right _ h
  · simp only []
    by_cases hc : some lg ≠ sp.2.2
    · rw [if_pos hc]
      refine str_append_ne_left _ (str_append_ne_right _ ?_)
      decide
    · rw [if_neg hc]
      exact str_append_ne_right _ h

theorem renderAux_append (xs ys : List Token) (spk lang : Option String) :
    renderAux (xs ++ ys) spk lang =
      ((renderAux xs spk lang).1 ++
        (renderAux ys (renderAux xs spk lang).2.1 (renderAux xs spk lang).2.2).1,
       (renderAux ys (renderAux xs spk lang).2.1 (renderAux xs spk lang).2.2).2) := by
  induction xs generalizing spk lang with
  | nil => simp [renderAux, str_empty_append]
  | cons t xs ih =>
    by_cases h : t.text = ""
    · simp [renderAux, h, ih]
    · simp only [List.cons_append, renderAux, if_neg h, List.append_eq]
      rw [ih]
      simp [str_append_assoc]

theorem renderAux_cons_ne (t : Token) (rest : List Token) (spk lang : Option String)
    (h : t.text ≠ "") :
    (renderAux (t :: rest) spk lang).1 ≠ "" := by
  simp only [renderAux, h, if_neg, reduceIte]
  exact str_append_ne_left _ (renderStep_ne t spk lang h)

/-- C3: for every list of final tokens and every non-empty list of non-final
tokens, none with empty text, the finals-only rendering is a strict textual
prefix of the finals-plus-nonfinals rendering. -/
theorem C3_render_finals_strict_textual_prefix
    (final_tokens nfs : List Token) (hne : nfs ≠ [])
    (h : ∀ t ∈ nfs, t.text ≠ "") :
    ∃ s : String, s ≠ "" ∧
      _render_tokens final_tokens nfs = _render_tokens final_tokens [] ++ s := by
  unfold _render_tokens
  rw [List.append_nil, renderAux_append]
  refine ⟨_, ?_, rfl⟩
  cases nfs with
  | nil => exact absurd rfl hne
  | cons t rest =>
    exact renderAux_cons_ne t rest _ _ (h t (List.mem_cons_self t rest))

/-- Witness for C3 at a concrete input. -/
theorem C3_render_finals_strict_textual_prefix_witness :
    ([{ text := "hi", is_final := false }] : List Token) ≠ [] ∧
    (∀ t ∈ ([{ text := "hi", is_final := false }] : List Token), t.text ≠ "") ∧
    ∃ s : String, s ≠ "" ∧
      _render_tokens [{ text := "hello", is_final := true }]
          [{ text := "hi", is_final := false }] =
        _render_tokens [{ text := "hello", is_final := true }] [] ++ s :=
  ⟨by decide, by decide,
   C3_render_finals_strict_textual_prefix _ _ (by decide) (by decide)⟩

theorem splitBatch_of_hasText (batch : List Token) (h : ∀ t ∈ batch, t.text ≠ "") :
    splitBatch batch = (batch.filter (·.is_final), batch.filter (fun t => !t.is_final)) := by
  induction batch with
  | nil => rfl
  | cons t rest ih =>
    have ht : t.text ≠ "" := h t (List.mem_cons_self t rest)
    have hr := ih (fun u hu => h u (List.mem_cons_of_mem t hu))
    cases hf : t.is_final <;> simp [splitBatch, ht, hr, List.filter_cons, hf]

/-- C2: merging a batch appends the batch's final tokens, in order, to the
final buffer without disturbing earlier finals, and replaces the non-final
buffer with the batch's non-final tokens; in particular two successive
singleton non-final batches leave only the second token. -/
theorem C2_merge_appends_finals_replaces_nonfinals
    (st : STState) (batch : List Token) (h : ∀ t ∈ batch, t.text ≠ "") :
    (mergeBatch st batch).final_tokens = st.final_tokens ++ batch.filter (·.is_final) ∧
    (mergeBatch st batch).last_non_final_tokens = batch.filter (fun t => !t.is_final) ∧
    ∀ A B : Token, A.text ≠ "" → B.text ≠ "" → A.is_final = false → B.is_final = false →
      (mergeBatch (mergeBatch st [A]) [B]).last_non_final_tokens = [B] := by
  refine ⟨?_, ?_, ?_⟩
  · simp [mergeBatch, splitBatch_of_hasText batch h]
  · simp [mergeBatch, splitBatch_of_hasText batch h]
  · intro A B hA hB hfA hfB
    simp [mergeBatch, splitBatch, hA, hB, hfA, hfB]

/-- Witness for C2 at a concrete state and batch. -/
theorem C2_merge_appends_finals_replaces_nonfinals_witness :
    (∀ t ∈ ([{ text := "a", is_final := true }, { text := "b" }] : List Token), t.text ≠ "") ∧
    ((mergeBatch initState [{ text := "a", is_final := true }, { text := "b" }]).final_tokens =
        initState.final_tokens ++
          ([{ text := "a", is_final := true }, { text := "b" }] : List Token).filter (·.is_final) ∧
      (mergeBatch initState
          [{ text := "a", is_final := true }, { text := "b" }]).last_non_final_tokens =
        ([{ text := "a", is_final := true }, { text := "b" }] : List Token).filter
          (fun t => !t.is_final) ∧
      ∀ A B : Token, A.text ≠ "" → B.text ≠ "" → A.is_final = false → B.is_final = false →
        (mergeBatch (mergeBatch initState [A]) [B]).last_non_final_tokens = [B]) :=
  ⟨by decide, C2_merge_appends_finals_replaces_nonfinals initState _ (by decide)⟩

theorem splitBatch_filter_hasText (batch : List Token) :
    splitBatch (batch.filter hasText) = splitBatch batch := by
  induction batch with
  | nil => rfl
  | cons t rest ih =>
    by_cases h : t.text = "" <;>
      simp [List.filter_cons, hasText, h, splitBatch, ih]

theorem renderAux_filter_hasText (l : List Token) (spk lang : Option String) :
    renderAux (l.filter hasText) spk lang = renderAux l spk lang := by
  induction l generalizing spk lang with
  | nil => rfl
  | cons t rest ih =>
    by_cases h : t.text = "" <;>
      simp [List.filter_cons, hasText, h, renderAux, ih]

/-- C10: tokens with empty (or absent) text are silently discarded at both
boundaries: they change neither buffer under merge, they do not affect the
rendered string, and a batch event produces the same state and output as the
same batch with empty-text tokens removed. -/
theorem C10_empty_text_tokens_ignored :
    (∀ st batch, mergeBatch st batch = mergeBatch st (batch.filter hasText)) ∧
    (∀ f nf, _render_tokens f nf = _render_tokens (f.filter hasText) (nf.filter hasText)) ∧
    (∀ st batch, stepEv st (.batch batch) = stepEv st (.batch (batch.filter hasText))) := by
  have hm : ∀ st batch, mergeBatch st batch = mergeBatch st (batch.filter hasText) := by
    intro st batch
    simp [mergeBatch, splitBatch_filter_hasText]
  refine ⟨hm, ?_, ?_⟩
  · intro f nf
    unfold _render_tokens
    rw [← List.filter_append, renderAux_filter_hasText]
  · intro st batch
    simp only [stepEv, hm st batch]

/-- C1: end-to-end scenario A: from idle connected state, speech start, three
audio chunks, a non-final batch `hel`, a final batch `hello`, speech stop;
the downstream events are the passthrough frames, then one finalized
transcript whose text is exactly `hello`, immediately followed by exactly one
trigger event. -/
theorem C1_scenarioA_emits_hello_then_one_trigger :
    runTrace initState
      [.speechStart true, .audio .ok, .audio .ok, .audio .ok,
       .batch [{ text := "hel", is_final := false }],
       .batch [{ text := "hello", is_final := true }],
       .speechStop] =
    (initState,
     [.startedFrame, .audioFrame, .audioFrame, .audioFrame,
      .transcription "hello", .llmRun, .stoppedFrame]) := rfl

/-- C6: at the emission step a transcript event fires iff the produced string
is non-empty after trimming; when it fires it is immediately followed by
exactly one trigger event; the trigger fires only together with a
transcript; the raw stop frame is always forwarded last; the state returns
to idle with the accumulator reset; and the silent start/stop pair emits no
transcript and no trigger. -/
theorem C6_emission_iff_nonempty_transcript :
    (∀ st s, OutEv.transcription s ∈ (stepEv st .speechStop).2 ↔
        ∃ t, textToSend st = some t ∧ t ≠ "" ∧ pyStrip t ≠ "" ∧ s = pyStrip t) ∧
    (∀ st s, OutEv.transcription s ∈ (stepEv st .speechStop).2 →
        (stepEv st .speechStop).2 = [.transcription s, .llmRun, .stoppedFrame]) ∧
    (∀ st, OutEv.llmRun ∈ (stepEv st .speechStop).2 ↔
        ∃ s, OutEv.transcription s ∈ (stepEv st .speechStop).2) ∧
    (∀ st, ∃ pre, (stepEv st .speechStop).2 = pre ++ [OutEv.stoppedFrame]) ∧
    (∀ st, (stepEv st .speechStop).1 =
        { websocket := st.websocket, is_speaking := false,
          final_tokens := [], last_non_final_tokens := [] }) ∧
    runTrace initState [.speechStart true, .speechStop] =
      (initState, [.startedFrame, .stoppedFrame]) := by
  have houts : ∀ st : STState, (stepEv st .speechStop).2 =
      (match textToSend st with
       | some t => if t ≠ "" ∧ pyStrip t ≠ "" then
           [OutEv.transcription (pyStrip t), OutEv.llmRun] else []
       | none => []) ++ [OutEv.stoppedFrame] := fun _ => rfl
  refine ⟨?_, ?_, ?_, ?_, fun _ => rfl, rfl⟩
  · intro st s
    rw [houts]
    rcases h : textToSend st with _ | t
    · simp
    · by_cases hc : t ≠ "" ∧ pyStrip t ≠ ""
      · simp only [if_pos hc]
        constructor
        · intro hmem
          rcases List.mem_append.1 hmem with hmem | hmem
          · simp only [List.mem_cons, List.not_mem_nil, or_false] at hmem
            rcases hmem with hmem | hmem
            · exact ⟨t, rfl, hc.1, hc.2, OutEv.transcription.inj hmem⟩
            · exact absurd hmem (by simp)
          · simp at hmem
        · rintro ⟨u, hu, hu1, hu2, rfl⟩
          cases hu
          simp
      · simp only [if_neg hc]
        constructor
        · intro hmem
          simp at hmem
        · rintro ⟨u, hu, hu1, hu2, rfl⟩
          cases hu
          exact absurd ⟨hu1, hu2⟩ hc
  · intro st s
    rw [houts]
    rcases h : textToSend st with _ | t
    · simp
    · by_cases hc : t ≠ "" ∧ pyStrip t ≠ ""
      · simp only [if_pos hc]
        intro hmem
        have hse : s = pyStrip t := by
          rcases List.mem_append.1 hmem with hmem | hmem
          · simp only [List.mem_cons, List.not_mem_nil, or_false] at hmem
            rcases hmem with hmem | hmem
            · exact OutEv.transcription.inj hmem
            · exact absurd hmem (by simp)
          · simp at hmem
        rw [hse]
        rfl
      · simp only [if_neg hc]
        intro hmem
        simp at hmem
  · intro st
    rw [houts]
    rcases h : textToSend st with _ | t
    · simp
    · by_cases hc : t ≠ "" ∧ pyStrip t ≠ ""
      · simp [if_pos hc]
      · simp [if_neg hc]
  · intro st
    rw [houts]
    exact ⟨_, rfl⟩

/-- Witness for C6 at a concrete state holding one final token `hello`. -/
theorem C6_emission_iff_nonempty_transcript_witness :
    OutEv.transcription "hello" ∈
      (stepEv { websocket := true, is_speaking := true,
                final_tokens := [{ text := "hello", is_final := true }],
                last_non_final_tokens := [] } .speechStop).2 ∧
    (stepEv { websocket := true, is_speaking := true,
              final_tokens := [{ text := "hello", is_final := true }],
              last_non_final_tokens := [] } .speechStop).2 =
      [.transcription "hello", .llmRun, .stoppedFrame] := by
  have h := C6_emission_iff_nonempty_transcript
  have hmem : OutEv.transcription "hello" ∈
      (stepEv { websocket := true, is_speaking := true,
                final_tokens := [{ text := "hello", is_final := true }],
                last_non_final_tokens := [] } .speechStop).2 :=
    (h.1 _ "hello").2 ⟨"hello", rfl, by decide, by decide, rfl⟩
  exact ⟨hmem, h.2.1 _ "hello" hmem⟩

/-- C7: when sending an audio chunk hits a closed channel, the chunk is still
passed downstream (no exception reaches the audio path), the connection
handle is cleared, the buffers are untouched, and the next speech start
re-establishes the connection. -/
theorem C7_send_failure_marks_dead_and_next_start_reconnects
    (st : STState) (hw : st.websocket = true) (hs : st.is_speaking = true) :
    (stepEv st (.audio .closedErr)).2 = [.audioFrame] ∧
    (stepEv st (.audio .closedErr)).1.websocket = false ∧
    (stepEv st (.audio .closedErr)).1.final_tokens = st.final_tokens ∧
    (stepEv st (.audio .closedErr)).1.last_non_final_tokens = st.last_non_final_tokens ∧
    (stepEv (stepEv st (.audio .closedErr)).1 (.speechStart true)).1.websocket = true := by
  simp [stepEv, hw, hs]

/-- Witness for C7 at a concrete speaking, connected state. -/
theorem C7_send_failure_marks_dead_and_next_start_reconnects_witness :
    (stepEv { websocket := true, is_speaking := true,
              final_tokens := [], last_non_final_tokens := [] } (.audio .closedErr)).2 =
        [.audioFrame] ∧
    (stepEv { websocket := true, is_speaking := true,
              final_tokens := [], last_non_final_tokens := [] } (.audio .closedErr)).1.websocket =
        false ∧
    (stepEv (stepEv { websocket := true, is_speaking := true,
                      final_tokens := [], last_non_final_tokens := [] } (.audio .closedErr)).1
        (.speechStart true)).1.websocket = true := by
  have h := C7_send_failure_marks_dead_and_next_start_reconnects
    { websocket := true, is_speaking := true,
      final_tokens := [], last_non_final_tokens := [] } rfl rfl
  exact ⟨h.1, h.2.1, h.2.2.2.2⟩

/-- C8: a remote-reported error closes the connection (subsequent batches are
no-ops, i.e. the receive loop has terminated), surfaces only an error notice,
leaves the accumulated final tokens untouched, and the in-flight utterance
still produces its transcript from those tokens at the stop boundary. -/
theorem C8_remote_error_keeps_finals_and_drains
    (st : STState) (hw : st.websocket = true) :
    (stepEv st .remoteError).2 = [.errorNotice] ∧
    (stepEv st .remoteError).1.websocket = false ∧
    (stepEv st .remoteError).1.final_tokens = st.final_tokens ∧
    (stepEv st .remoteError).1.last_non_final_tokens = st.last_non_final_tokens ∧
    (∀ batch, stepEv (stepEv st .remoteError).1 (.batch batch) =
        ((stepEv st .remoteError).1, [])) ∧
    (st.final_tokens ≠ [] →
      textToSend (stepEv st .remoteError).1 =
        some (_clean_transcription (_render_tokens st.final_tokens []))) ∧
    (st.final_tokens ≠ [] →
      _clean_transcription (_render_tokens st.final_tokens []) ≠ "" →
      pyStrip (_clean_transcription (_render_tokens st.final_tokens [])) ≠ "" →
      (stepEv (stepEv st .remoteError).1 .speechStop).2 =
        [.transcription (pyStrip (_clean_transcription (_render_tokens st.final_tokens []))),
         .llmRun, .stoppedFrame]) := by
  refine ⟨by simp [stepEv, hw], by simp [stepEv, hw], by simp [stepEv, hw],
    by simp [stepEv, hw], ?_, ?_, ?_⟩
  · intro batch
    simp [stepEv, hw]
  · intro hne
    simp [stepEv, hw, textToSend, hne]
  · intro hne h1 h2
    simp [stepEv, hw, textToSend, hne, h1, h2]

/-- Witness for C8 at a concrete connected state holding one final token. -/
theorem C8_remote_error_keeps_finals_and_drains_witness :
    (stepEv { websocket := true, is_speaking := true,
              final_tokens := [{ text := "hello", is_final := true }],
              last_non_final_tokens := [] } .remoteError).1.final_tokens =
        [{ text := "hello", is_final := true }] ∧
    (stepEv (stepEv { websocket := true, is_speaking := true,
                      final_tokens := [{ text := "hello", is_final := true }],
                      last_non_final_tokens := [] } .remoteError).1 .speechStop).2 =
      [.transcription "hello", .llmRun, .stoppedFrame] := by
  have h := C8_remote_error_keeps_finals_and_drains
    { websocket := true, is_speaking := true,
      final_tokens := [{ text := "hello", is_final := true }],
      last_non_final_tokens := [] } rfl
  refine ⟨h.2.2.1, ?_⟩
  have := h.2.2.2.2.2.2 (by decide) (by decide) (by decide)
  exact this

theorem cfgGet_nil (k : String) : cfgGet k [] = none := rfl

theorem cfgGet_cons (k : String) (kv : String × CVal) (rest : List (String × CVal)) :
    cfgGet k (kv :: rest) = if kv.1 = k then some kv.2 else cfgGet k rest := rfl

theorem cfgGet_append_of_none {k : String} {a : List (String × CVal)}
    (h : cfgGet k a = none) (b : List (String × CVal)) :
    cfgGet k (a ++ b) = cfgGet k b := by
  induction a with
  | nil => rfl
  | cons kv rest ih =>
    by_cases hk : kv.1 = k
    · rw [cfgGet_cons, if_pos hk] at h
      exact absurd h (by simp)
    · rw [cfgGet_cons, if_neg hk] at h
      rw [List.cons_append, cfgGet_cons, if_neg hk]
      exact ih h

theorem cfgGet_append_of_some {k : String} {a : List (String × CVal)} {v : CVal}
    (h : cfgGet k a = some v) (b : List (String × CVal)) :
    cfgGet k (a ++ b) = some v := by
  induction a with
  | nil => rw [cfgGet_nil] at h; exact absurd h (by simp)
  | cons kv rest ih =>
    by_cases hk : kv.1 = k
    · rw [cfgGet_cons, if_pos hk] at h
      rw [List.cons_append, cfgGet_cons, if_pos hk]
      exact h
    · rw [cfgGet_cons, if_neg hk] at h
      rw [List.cons_append, cfgGet_cons, if_neg hk]
      exact ih h

theorem cfgGet_optChunk_ne {k key : String} (h : key ≠ k)
    (c : Option (List (String × String))) : cfgGet k (optChunk key c) = none := by
  cases c with
  | none => rfl
  | some d =>
    by_cases hd : d ≠ []
    · simp [optChunk, hd, cfgGet, h]
    · simp [optChunk, hd, cfgGet]

theorem cfgGet_audioChunk_other (p : SonioxParams) {k : String}
    (h1 : k ≠ "audio_format") (h2 : k ≠ "sample_rate") (h3 : k ≠ "num_channels") :
    cfgGet k (audioChunk p) = none := by
  unfold audioChunk
  split
  · rw [cfgGet_cons, if_neg (Ne.symm h1)]
    rfl
  · split
    · rw [cfgGet_cons, if_neg (Ne.symm h1), cfgGet_cons, if_neg (Ne.symm h2), cfgGet_cons,
        if_neg (Ne.symm h3)]
      rfl
    · simp only [List.cons_append, List.nil_append]
      rw [cfgGet_cons, if_neg (Ne.symm h1)]
      split
      · simp only [List.cons_append, List.nil_append]
        rw [cfgGet_cons, if_neg (Ne.symm h2)]
        split
        · rw [cfgGet_cons, if_neg (Ne.symm h3)]
          rfl
        · rfl
      · simp only [List.nil_append]
        split
        · rw [cfgGet_cons, if_neg (Ne.symm h3)]
          rfl
        · rfl

theorem cfgGet_base_context (p : SonioxParams) : cfgGet "context" (baseChunk p) = none := rfl

/-- Counterexample for C9: with the configured format `s16le` the format
string is not passed through; the handshake carries `pcm_s16le` instead. -/
theorem C9_counterexample_s16le_not_passed_through :
    cfgGet "audio_format" (_get_config { api_key := "k", audio_format := "s16le" }) ≠
        some (CVal.s "s16le") ∧
    cfgGet "audio_format" (_get_config { api_key := "k", audio_format := "s16le" }) =
        some (CVal.s "pcm_s16le") := by
  exact ⟨by decide, rfl⟩

/-- C9 (amended): the handshake record always carries `api_key`, `model`,
`language_hints` and the three feature flags; `context` appears only when a
truthy context was provided; and the audio-format fields satisfy: `auto`
maps to `audio_format = "auto"` with no `sample_rate`/`num_channels`;
`pcm_s16le` *or its alias `s16le`* maps to `audio_format = "pcm_s16le"` with
both `sample_rate` and `num_channels`; any other format string is passed
through with `sample_rate`/`num_channels` present iff non-zero. -/
theorem C9_handshake_record_fields (p : SonioxParams) :
    cfgGet "api_key" (_get_config p) = some (.s p.api_key) ∧
    cfgGet "model" (_get_config p) = some (.s p.model) ∧
    cfgGet "language_hints" (_get_config p) = some (.ls p.language_hints) ∧
    cfgGet "enable_language_identification" (_get_config p) =
      some (.b p.enable_language_identification) ∧
    cfgGet "enable_speaker_diarization" (_get_config p) =
      some (.b p.enable_speaker_diarization) ∧
    cfgGet "enable_endpoint_detection" (_get_config p) =
      some (.b p.enable_endpoint_detection) ∧
    (∀ d, cfgGet "context" (_get_config p) = some (.dict d) → p.context = some d) ∧
    (p.context = none → cfgGet "context" (_get_config p) = none) ∧
    (p.audio_format = "auto" →
      cfgGet "audio_format" (_get_config p) = some (.s "auto") ∧
      cfgGet "sample_rate" (_get_config p) = none ∧
      cfgGet "num_channels" (_get_config p) = none) ∧
    (p.audio_format = "pcm_s16le" ∨ p.audio_format = "s16le" →
      cfgGet "audio_format" (_get_config p) = some (.s "pcm_s16le") ∧
      cfgGet "sample_rate" (_get_config p) = some (.n p.sample_rate) ∧
      cfgGet "num_channels" (_get_config p) = some (.n p.channels)) ∧
    (p.audio_format ≠ "auto" → p.audio_format ≠ "pcm_s16le" → p.audio_format ≠ "s16le" →
      cfgGet "audio_format" (_get_config p) = some (.s p.audio_format) ∧
      cfgGet "sample_rate" (_get_config p) =
        (if p.sample_rate ≠ 0 then some (.n p.sample_rate) else none) ∧
      cfgGet "num_channels" (_get_config p) =
        (if p.channels ≠ 0 then some (.n p.channels) else none)) := by
  have hget : ∀ (k : String) (v : CVal), cfgGet k (baseChunk p) = some v →
      cfgGet k (_get_config p) = some v := by
    intro k v h
    exact cfgGet_append_of_some (cfgGet_append_of_some (cfgGet_append_of_some h _) _) _
  have hmid : ∀ k : String, k ≠ "context" → cfgGet k (baseChunk p) = none →
      cfgGet k (_get_config p) =
        cfgGet k (audioChunk p ++ optChunk "translation" p.translation) := by
    intro k hk h
    show cfgGet k (baseChunk p ++ optChunk "context" p.context ++ audioChunk p ++
      optChunk "translation" p.translation) = _
    rw [List.append_assoc, List.append_assoc, cfgGet_append_of_none h,
      cfgGet_append_of_none (cfgGet_optChunk_ne (Ne.symm hk) _)]
  have hsm : ∀ (k : String) (v : CVal), k ≠ "context" →
      cfgGet k (baseChunk p) = none → cfgGet k (audioChunk p) = some v →
      cfgGet k (_get_config p) = some v := by
    intro k v hk hb ha
    rw [hmid k hk hb]
    exact cfgGet_append_of_some ha _
  have hno : ∀ k : String, k ≠ "context" → "translation" ≠ k →
      cfgGet k (baseChunk p) = none → cfgGet k (audioChunk p) = none →
      cfgGet k (_get_config p) = none := by
    intro k hk htr hb ha
    rw [hmid k hk hb, cfgGet_append_of_none ha, cfgGet_optChunk_ne htr]
  refine ⟨hget _ _ rfl, hget _ _ rfl, hget _ _ rfl, hget _ _ rfl, hget _ _ rfl, hget _ _ rfl,
    ?_, ?_, ?_, ?_, ?_⟩
  · intro d hd
    rw [show _get_config p = baseChunk p ++ (optChunk "context" p.context ++
        (audioChunk p ++ optChunk "translation" p.translation)) by
      unfold _get_config
      rw [List.append_assoc, List.append_assoc]] at hd
    rw [cfgGet_append_of_none (cfgGet_base_context p)] at hd
    rcases hc : p.context with _ | c
    · rw [hc] at hd
      rw [show optChunk "context" (none : Option (List (String × String))) = [] from rfl,
        List.nil_append,
        cfgGet_append_of_none (cfgGet_audioChunk_other p (by decide) (by decide) (by decide)),
        cfgGet_optChunk_ne (by decide)] at hd
      exact absurd hd (by simp)
    · rw [hc] at hd
      by_cases hce : c = []
      · rw [hce] at hd
        rw [show optChunk "context" (some ([] : List (String × String))) = [] from rfl,
          List.nil_append,
          cfgGet_append_of_none (cfgGet_audioChunk_other p (by decide) (by decide) (by decide)),
          cfgGet_optChunk_ne (by decide)] at hd
        exact absurd hd (by simp)
      · rw [show optChunk "context" (some c) = if c ≠ [] then [("context", .dict c)] else []
            from rfl, if_pos hce, List.cons_append, cfgGet_cons, if_pos rfl] at hd
        have hcd := CVal.dict.inj (Option.some.inj hd)
        exact congrArg some hcd
  · intro hc
    rw [show _get_config p = baseChunk p ++ (optChunk "context" p.context ++
        (audioChunk p ++ optChunk "translation" p.translation)) by
      unfold _get_config
      rw [List.append_assoc, List.append_assoc]]
    rw [cfgGet_append_of_none (cfgGet_base_context p), hc,
      show optChunk "context" (none : Option (List (String × String))) = [] from rfl,
      List.nil_append,
      cfgGet_append_of_none (cfgGet_audioChunk_other p (by decide) (by decide) (by decide)),
      cfgGet_optChunk_ne (by decide)]
  · intro hf
    have hac : audioChunk p = [("audio_format", .s "auto")] := by
      unfold audioChunk
      rw [if_pos hf]
    exact ⟨hsm _ _ (by decide) rfl (by rw [hac]; rfl),
      hno _ (by decide) (by decide) rfl (by rw [hac]; rfl),
      hno _ (by decide) (by decide) rfl (by rw [hac]; rfl)⟩
  · intro hf
    have hfa : p.audio_format ≠ "auto" := by
      rcases hf with h | h <;> rw [h] <;> decide
    have hac : audioChunk p =
        [("audio_format", .s "pcm_s16le"),
         ("sample_rate", .n p.sample_rate),
         ("num_channels", .n p.channels)] := by
      unfold audioChunk
      rw [if_neg hfa, if_pos hf]
    exact ⟨hsm _ _ (by decide) rfl (by rw [hac]; rfl),
      hsm _ _ (by decide) rfl (by rw [hac]; rfl),
      hsm _ _ (by decide) rfl (by rw [hac]; rfl)⟩
  · intro h1 h2 h3
    have hor : ¬(p.audio_format = "pcm_s16le" ∨ p.audio_format = "s16le") := by
      rintro (h | h)
      · exact h2 h
      · exact h3 h
    have hac : audioChunk p =
        [("audio_format", .s p.audio_format)]
        ++ (if p.sample_rate ≠ 0 then [("sample_rate", .n p.sample_rate)] else [])
        ++ (if p.channels ≠ 0 then [("num_channels", .n p.channels)] else []) := by
      unfold audioChunk
      rw [if_neg h1, if_neg hor]
    refine ⟨hsm _ _ (by decide) rfl (by rw [hac]; rfl), ?_, ?_⟩
    · by_cases hsr : p.sample_rate ≠ 0
      · rw [if_pos hsr]
        refine hsm _ _ (by decide) rfl ?_
        rw [hac, if_pos hsr]
        by_cases hch : p.channels ≠ 0
        · rw [if_pos hch]
          rfl
        · rw [if_neg hch]
          rfl
      · rw [if_neg hsr]
        refine hno _ (by decide) (by decide) rfl ?_
        rw [hac, if_neg hsr]
        by_cases hch : p.channels ≠ 0
        · rw [if_pos hch]
          rfl
        · rw [if_neg hch]
          rfl
    · by_cases hch : p.channels ≠ 0
      · rw [if_pos hch]
        refine hsm _ _ (by decide) rfl ?_
        rw [hac, if_pos hch]
        by_cases hsr : p.sample_rate ≠ 0
        · rw [if_pos hsr]
          rfl
        · rw [if_neg hsr]
          rfl
      · rw [if_neg hch]
        refine hno _ (by decide) (by decide) rfl ?_
        rw [hac, if_neg hch]
        by_cases hsr : p.sample_rate ≠ 0
        · rw [if_pos hsr]
          rfl
        · rw [if_neg hsr]
          rfl

/-- Witness for C9 at concrete parameter records exercising the three
audio-format cases. -/
theorem C9_handshake_record_fields_witness :
    cfgGet "api_key" (_get_config { api_key := "k" }) = some (.s "k") ∧
    cfgGet "audio_format" (_get_config { api_key := "k" }) = some (.s "auto") ∧
    cfgGet "sample_rate" (_get_config { api_key := "k" }) = none ∧
    cfgGet "audio_format" (_get_config { api_key := "k", audio_format := "pcm_s16le" }) =
      some (.s "pcm_s16le") ∧
    cfgGet "sample_rate" (_get_config { api_key := "k", audio_format := "pcm_s16le" }) =
      some (.n 16000) ∧
    cfgGet "audio_format" (_get_config { api_key := "k", audio_format := "wav" }) =
      some (.s "wav") := by
  have h1 := C9_handshake_record_fields { api_key := "k" }
  have h2 := C9_handshake_record_fields { api_key := "k", audio_format := "pcm_s16le" }
  have h3 := C9_handshake_record_fields { api_key := "k", audio_format := "wav" }
  have e1 := h1.2.2.2.2.2.2.2.2.1 (by decide)
  have e2 := h2.2.2.2.2.2.2.2.2.2.1 (by decide)
  have e3 := h3.2.2.2.2.2.2.2.2.2.2 (by decide) (by decide) (by decide)
  exact ⟨h1.1, e1.1, e1.2.1, e2.1, e2.2.1, e3.1⟩

theorem renderAux_cons (t : Token) (rest : List Token) (curSpk curLang : Option String) :
    renderAux (t :: rest) curSpk curLang =
      if t.text = "" then renderAux rest curSpk curLang
      else
        ((renderStep t curSpk curLang).1 ++
           (renderAux rest (renderStep t curSpk curLang).2.1
             (renderStep t curSpk curLang).2.2).1,
         (renderAux rest (renderStep t curSpk curLang).2.1
           (renderStep t curSpk curLang).2.2).2) := rfl

/-- Counterexample for C5: at the first speaker change (no previously set
speaker) the renderer inserts the `Speaker 1:` marker with no paragraph
break before it, so the output does not start with the claimed break. -/
theorem C5_counterexample_no_break_before_first_speaker :
    _render_tokens [{ text := "hi", speaker := some "1" }] [] = "Speaker 1:hi" ∧
    ¬ ∃ tail : String, _render_tokens [{ text := "hi", speaker := some "1" }] [] =
        "\n\n" ++ "Speaker " ++ "1" ++ ":" ++ tail := by
  refine ⟨rfl, ?_⟩
  rintro ⟨tail, h⟩
  have h2 : (['S', 'p'] : List Char) = ['\n', '\n'] := by
    calc (['S', 'p'] : List Char)
        = (_render_tokens [{ text := "hi", speaker := some "1" }] []).data.take 2 := rfl
      _ = (("\n\n" ++ "Speaker " ++ "1" ++ ":" ++ tail) : String).data.take 2 := by rw [h]
      _ = ['\n', '\n'] := by
          rw [str_data_append, List.take_append_of_le_length (by decide)]
          rfl
  exact absurd h2 (by decide)

/-- C5 (amended): whenever a token's speaker differs from the running
speaker value, the renderer emits a paragraph break *only if a previous
speaker was set*, then the `Speaker {id}:` marker, before the token's text;
the tracked speaker becomes the token's speaker and the tracked language is
reset to unset — observable in that the token's language tag is re-inserted
even when it equals the previously tracked language, and that after a
speaker change with no language the tracked language is unset. -/
theorem C5_speaker_change_marker_and_language_reset
    (t : Token) (rest : List Token) (curSpk curLang : Option String) (s : String)
    (ht : t.text ≠ "") (hs : t.speaker = some s) (hne : some s ≠ curSpk) :
    (∃ tail : String, (renderAux (t :: rest) curSpk curLang).1 =
        (if curSpk = none then "" else "\n\n") ++ "Speaker " ++ s ++ ":" ++ tail) ∧
    (renderStep t curSpk curLang).2.1 = some s ∧
    (renderStep t curSpk curLang).2.2 = t.language ∧
    (∀ lg, t.language = some lg →
      ∃ t1 t2 : String, (renderAux (t :: rest) curSpk curLang).1 =
        t1 ++ "[" ++ lg ++ "] " ++ t2) := by
  obtain ⟨txt, fin, spk, lang, tr⟩ := t
  replace hs : spk = some s := hs
  replace ht : txt ≠ "" := ht
  subst hs
  rcases lang with _ | lg
  · have hstep : renderStep ⟨txt, fin, some s, none, tr⟩ curSpk curLang =
        ((if curSpk = none then "" else "\n\n") ++ "Speaker " ++ s ++ ":" ++ txt,
         some s, none) := by
      unfold renderStep speakerPart
      simp only [if_pos hne]
    rw [renderAux_cons, if_neg ht, hstep]
    refine ⟨⟨txt ++ (renderAux rest (some s) none).1, str_append_assoc _ _ _⟩, rfl, rfl, ?_⟩
    intro lg hl
    cases hl
  · have hstep : renderStep ⟨txt, fin, some s, some lg, tr⟩ curSpk curLang =
        ((if curSpk = none then "" else "\n\n") ++ "Speaker " ++ s ++ ":" ++ "\n" ++
           (if tr = some "translation" then "[Translation] " else "") ++
           "[" ++ lg ++ "] " ++ pyLStrip txt,
         some s, some lg) := by
      unfold renderStep speakerPart
      simp only [if_pos hne]
      rw [if_pos (Option.some_ne_none lg)]
    rw [renderAux_cons, if_neg ht, hstep]
    refine ⟨⟨"\n" ++ (if tr = some "translation" then "[Translation] " else "") ++
        "[" ++ lg ++ "] " ++ pyLStrip txt ++ (renderAux rest (some s) (some lg)).1, ?_⟩,
      rfl, rfl, ?_⟩
    · simp only [str_append_assoc]
    · intro lg' hl
      replace hl : some lg = some lg' := hl
      cases hl
      refine ⟨(if curSpk = none then "" else "\n\n") ++ "Speaker " ++ s ++ ":" ++ "\n" ++
          (if tr = some "translation" then "[Translation] " else ""),
        pyLStrip txt ++ (renderAux rest (some s) (some lg)).1, ?_⟩
      simp only [str_append_assoc]

/-- Witness for C5 at a concrete speaker change from `1` to `2` where the
token's language equals the previously tracked language. -/
theorem C5_speaker_change_marker_and_language_reset_witness :
    (∃ tail : String,
      (renderAux [{ text := "hi", speaker := some "2", language := some "en" }]
          (some "1") (some "en")).1 =
        (if (some "1" : Option String) = none then "" else "\n\n") ++
          "Speaker " ++ "2" ++ ":" ++ tail) ∧
    (∃ t1 t2 : String,
      (renderAux [{ text := "hi", speaker := some "2", language := some "en" }]
          (some "1") (some "en")).1 = t1 ++ "[" ++ "en" ++ "] " ++ t2) := by
  have h := C5_speaker_change_marker_and_language_reset
    { text := "hi", speaker := some "2", language := some "en" } [] (some "1") (some "en")
    "2" (by decide) rfl (by decide)
  exact ⟨h.1, h.2.2.2 "en" rfl⟩

theorem subAllF_congr (m : List Char → Option Nat) :
    ∀ (f1 f2 : Nat) (l : List Char), l.length ≤ f1 → l.length ≤ f2 →
      subAllF m f1 l = subAllF m f2 l := by
  intro f1
  induction f1 with
  | zero =>
    intro f2 l h1 h2
    have : l = [] := List.eq_nil_of_length_eq_zero (Nat.le_zero.1 h1)
    subst this
    cases f2 <;> rfl
  | succ f1 ih =>
    intro f2 l h1 h2
    cases l with
    | nil => cases f2 <;> rfl
    | cons c rest =>
      cases f2 with
      | zero => exact absurd h2 (by simp)
      | succ f2 =>
        simp only [subAllF]
        rcases hm : m (c :: rest) with _ | n
        · have hlen : rest.length ≤ f1 := by
            simp only [List.length_cons] at h1
            omega
          have hlen2 : rest.length ≤ f2 := by
            simp only [List.length_cons] at h2
            omega
          exact congrArg (c :: ·) (ih f2 rest hlen hlen2)
        · have hlen : (rest.drop (n - 1)).length ≤ f1 := by
            have := List.length_drop (n - 1) rest
            simp only [List.length_cons] at h1
            omega
          have hlen2 : (rest.drop (n - 1)).length ≤ f2 := by
            have := List.length_drop (n - 1) rest
            simp only [List.length_cons] at h2
            omega
          exact ih f2 (rest.drop (n - 1)) hlen hlen2

theorem subAll_cons_none {m : List Char → Option Nat} {c : Char} {l : List Char}
    (h : m (c :: l) = none) : subAll m (c :: l) = c :: subAll m l := by
  unfold subAll
  simp only [List.length_cons, subAllF, h]

theorem subAll_cons_some {m : List Char → Option Nat} {c : Char} {l : List Char} {n : Nat}
    (h : m (c :: l) = some n) : subAll m (c :: l) = subAll m (l.drop (n - 1)) := by
  unfold subAll
  simp only [List.length_cons, subAllF, h]
  exact subAllF_congr m _ _ _ (by rw [List.length_drop]; omega) le_rfl

theorem subAll_safe_append {m : List Char → Option Nat} {pre : List Char}
    (hpre : ∀ c ∈ pre, ∀ rest, m (c :: rest) = none) (l : List Char) :
    subAll m (pre ++ l) = pre ++ subAll m l := by
  induction pre with
  | nil => rfl
  | cons c pre ih =>
    rw [List.cons_append,
      subAll_cons_none (hpre c (List.mem_cons_self c pre) (pre ++ l)),
      ih fun d hd rest => hpre d (List.mem_cons_of_mem c hd) rest]
    rfl

theorem subAll_subset (m : List Char → Option Nat) :
    ∀ (n : Nat) (l : List Char), l.length ≤ n → ∀ c ∈ subAll m l, c ∈ l := by
  intro n
  induction n with
  | zero =>
    intro l h
    have : l = [] := List.eq_nil_of_length_eq_zero (Nat.le_zero.1 h)
    subst this
    intro c hc
    exact hc
  | succ n ih =>
    intro l h c hc
    cases l with
    | nil => exact hc
    | cons d rest =>
      rcases hm : m (d :: rest) with _ | k
      · rw [subAll_cons_none hm] at hc
        rcases List.mem_cons.1 hc with hc | hc
        · exact hc ▸ List.mem_cons_self d rest
        · refine List.mem_cons_of_mem d (ih rest ?_ c hc)
          simp only [List.length_cons] at h
          omega
      · rw [subAll_cons_some hm] at hc
        have h1 : c ∈ rest.drop (k - 1) := by
          refine ih (rest.drop (k - 1)) ?_ c hc
          have := List.length_drop (k - 1) rest
          simp only [List.length_cons] at h
          omega
        exact List.mem_cons_of_mem d (List.drop_subset (k - 1) rest h1)

theorem lower_ne_S {a : Char} (h : isAsciiLower a = true) : a ≠ 'S' := by
  intro heq
  rw [heq] at h
  exact absurd h (by decide)

theorem lower_ne_T {a : Char} (h : isAsciiLower a = true) : a ≠ 'T' := by
  intro heq
  rw [heq] at h
  exact absurd h (by decide)

theorem lower_ne_lbracket {a : Char} (h : isAsciiLower a = true) : a ≠ '[' := by
  intro heq
  rw [heq] at h
  exact absurd h (by decide)

theorem digit_not_ws {c : Char} (h : isPyDigit c = true) : isPyS c = false := by
  simp only [isPyDigit, Bool.and_eq_true, decide_eq_true_eq] at h
  simp only [isPyS, Bool.or_eq_false_iff, decide_eq_false_iff_not]
  omega

theorem matchLit_some : ∀ (lit l r : List Char), matchLit lit l = some r → l = lit ++ r := by
  intro lit
  induction lit with
  | nil =>
    intro l r h
    simp only [matchLit, Option.some.injEq] at h
    rw [h]
    rfl
  | cons p ps ih =>
    intro l r h
    cases l with
    | nil => exact absurd h (by simp [matchLit])
    | cons c cs =>
      by_cases hc : c = p
      · rw [matchLit, if_pos hc] at h
        rw [List.cons_append, hc, ih cs r h]
      · rw [matchLit, if_neg hc] at h
        exact absurd h (by simp)

theorem matchLit_append : ∀ (lit r : List Char), matchLit lit (lit ++ r) = some r := by
  intro lit
  induction lit with
  | nil => intro r; rfl
  | cons p ps ih =>
    intro r
    rw [List.cons_append, matchLit, if_pos rfl]
    exact ih r

theorem speakerM_none_of_head {c : Char} (h : c ≠ 'S') (l : List Char) :
    speakerMatchLen (c :: l) = none := by
  unfold speakerMatchLen speakerLit
  rw [matchLit, if_neg h]

theorem translationM_none_of_head {c : Char} (h : c ≠ '[') (l : List Char) :
    translationMatchLen (c :: l) = none := by
  unfold translationMatchLen translationLit
  rw [matchLit, if_neg h]

theorem langM_none_of_head {c : Char} (h : c ≠ '[') (l : List Char) :
    langTagMatchLen (c :: l) = none := by
  unfold langTagMatchLen
  split
  · next a b r heq =>
    exact absurd (List.head_eq_of_cons_eq heq) h
  · rfl

theorem takeWhile_all_append {p : Char → Bool} :
    ∀ (d : List Char) (x : Char) (l : List Char), (∀ c ∈ d, p c = true) → p x = false →
      (d ++ x :: l).takeWhile p = d := by
  intro d
  induction d with
  | nil =>
    intro x l _ hx
    simp [List.takeWhile_cons, hx]
  | cons c d ih =>
    intro x l h hx
    rw [List.cons_append, List.takeWhile_cons, h c (List.mem_cons_self c d),
      ih x l (fun e he => h e (List.mem_cons_of_mem c he)) hx]
    simp

theorem drop_len_takeWhile (p : Char → Bool) :
    ∀ l : List Char, l.drop ((l.takeWhile p).length) = l.dropWhile p := by
  intro l
  induction l with
  | nil => rfl
  | cons c rest ih =>
    rw [List.takeWhile_cons, List.dropWhile_cons]
    cases hp : p c
    · simp
    · simp only [List.length_cons, List.drop_succ_cons]
      exact ih

theorem takeWhile_digits_colon (d l : List Char) (hdig : ∀ c ∈ d, isPyDigit c = true) :
    (d ++ ':' :: l).takeWhile isPyS = [] := by
  cases d with
  | nil => rfl
  | cons c d' =>
    have hc : isPyS c = false := digit_not_ws (hdig c (List.mem_cons_self c d'))
    simp [List.takeWhile_cons, hc]

theorem speakerM_marker (d l : List Char) (hd : d ≠ [])
    (hdig : ∀ c ∈ d, isPyDigit c = true) :
    speakerMatchLen ('S' :: 'p' :: 'e' :: 'a' :: 'k' :: 'e' :: 'r' :: ' ' :: (d ++ ':' :: l)) =
      some (9 + d.length + (l.takeWhile isPyS).length) := by
  have h0 : ('S' :: 'p' :: 'e' :: 'a' :: 'k' :: 'e' :: 'r' :: ' ' :: (d ++ ':' :: l)) =
      speakerLit ++ (' ' :: (d ++ ':' :: l)) := rfl
  have h1 : (' ' :: (d ++ ':' :: l)).takeWhile isPyS = [' '] := by
    rw [List.takeWhile_cons]
    simp only [show isPyS ' ' = true from rfl, if_true, takeWhile_digits_colon d l hdig]
  have h3 : (d ++ ':' :: l).takeWhile isPyDigit = d :=
    takeWhile_all_append d ':' l hdig (by decide)
  have h4 : (d ++ ':' :: l).drop d.length = ':' :: l := List.drop_left d (':' :: l)
  have h5 : ¬ d.length = 0 := by
    simp [List.length_eq_zero, hd]
  rw [h0]
  unfold speakerMatchLen
  rw [matchLit_append]
  simp only [h1, List.length_cons, List.length_nil, List.drop_succ_cons, List.drop_zero,
    h3, h4, if_neg h5]
  rw [if_neg (show ¬ (0 + 1 = 0) by omega)]
  congr 1
  omega

theorem translationM_at (l : List Char) :
    translationMatchLen (translationLit ++ l) = some (13 + (l.takeWhile isPyS).length) := by
  unfold translationMatchLen
  rw [matchLit_append]

theorem langM_at (a b : Char) (l : List Char) (ha : isAsciiLower a = true)
    (hb : isAsciiLower b = true) :
    langTagMatchLen ('[' :: a :: b :: ']' :: l) =
      some (4 + (l.takeWhile isPyS).length) := by
  show (if (isAsciiLower a && isAsciiLower b) = true then
      some (4 + (l.takeWhile isPyS).length) else none) =
    some (4 + (l.takeWhile isPyS).length)
  rw [ha, hb]
  rfl

theorem translationM_none_second {a : Char} (h : a ≠ 'T') (l : List Char) :
    translationMatchLen ('[' :: a :: l) = none := by
  unfold translationMatchLen translationLit
  rw [matchLit, if_pos rfl, matchLit, if_neg h]

theorem RGram_dropWhile_ws {l : List Char} (h : RGram l) : RGram (l.dropWhile isPyS) := by
  induction h with
  | nil => exact RGram.nil
  | ch c l h1 h2 h3 _ ih =>
    rw [List.dropWhile_cons]
    cases hp : isPyS c
    · simpa using RGram.ch c l h1 h2 h3 (by assumption)
    · simpa using ih
  | marker d l hd hdig hg _ =>
    rw [List.dropWhile_cons]
    simpa using RGram.marker d l hd hdig hg
  | ttag l hg _ =>
    rw [show translationLit ++ l = '[' :: (('T' :: 'r' :: 'a' :: 'n' :: 's' :: 'l' :: 'a' ::
      't' :: 'i' :: 'o' :: 'n' :: ']' :: []) ++ l) from rfl, List.dropWhile_cons]
    simpa using RGram.ttag l hg
  | ltag a b l ha hb hg _ =>
    rw [List.dropWhile_cons]
    simpa using RGram.ltag a b l ha hb hg

theorem G2_dropWhile_ws {l : List Char} (h : G2 l) : G2 (l.dropWhile isPyS) := by
  induction h with
  | nil => exact G2.nil
  | ch c l h1 h2 _ ih =>
    rw [List.dropWhile_cons]
    cases hp : isPyS c
    · simpa using G2.ch c l h1 h2 (by assumption)
    · simpa using ih
  | ttag l hg _ =>
    rw [show translationLit ++ l = '[' :: (('T' :: 'r' :: 'a' :: 'n' :: 's' :: 'l' :: 'a' ::
      't' :: 'i' :: 'o' :: 'n' :: ']' :: []) ++ l) from rfl, List.dropWhile_cons]
    simpa using G2.ttag l hg
  | ltag a b l ha hb hg _ =>
    rw [List.dropWhile_cons]
    simpa using G2.ltag a b l ha hb hg

theorem G3_dropWhile_ws {l : List Char} (h : G3 l) : G3 (l.dropWhile isPyS) := by
  induction h with
  | nil => exact G3.nil
  | ch c l h1 h2 _ ih =>
    rw [List.dropWhile_cons]
    cases hp : isPyS c
    · simpa using G3.ch c l h1 h2 (by assumption)
    · simpa using ih
  | ltag a b l ha hb hg _ =>
    rw [List.dropWhile_cons]
    simpa using G3.ltag a b l ha hb hg

theorem length_dropWhile_ws_le (l : List Char) :
    (l.dropWhile isPyS).length ≤ l.length := by
  induction l with
  | nil => simp
  | cons c rest ih =>
    rw [List.dropWhile_cons]
    cases hp : isPyS c
    · simp
    · simp only [if_pos rfl]
      exact le_trans ih (Nat.le_succ _)

/-- Pass 1: removing all `Speaker\s+\d+:\s*` matches from a rendered string
leaves a string in the colon-free grammar `G2`. -/
theorem pass1_G2 : ∀ (n : Nat) (l : List Char), l.length ≤ n → RGram l →
    G2 (subAll speakerMatchLen l) := by
  intro n
  induction n with
  | zero =>
    intro l h hg
    have : l = [] := List.eq_nil_of_length_eq_zero (Nat.le_zero.1 h)
    subst this
    exact G2.nil
  | succ n ih =>
    intro l h hg
    cases hg with
    | nil => exact G2.nil
    | ch c l' h1 h2 h3 hg' =>
      rw [subAll_cons_none (speakerM_none_of_head h2 l')]
      refine G2.ch c _ h1 h3 (ih l' ?_ hg')
      simp only [List.length_cons] at h
      omega
    | marker d l' hd hdig hg' =>
      rw [subAll_cons_some (speakerM_marker d l' hd hdig)]
      have e1 : 9 + d.length + (l'.takeWhile isPyS).length - 1 =
          (['p', 'e', 'a', 'k', 'e', 'r', ' '] : List Char).length +
            (d.length + (1 + (l'.takeWhile isPyS).length)) := by
        simp only [List.length_cons, List.length_nil]
        omega
      rw [show ('p' :: 'e' :: 'a' :: 'k' :: 'e' :: 'r' :: ' ' :: (d ++ ':' :: l')) =
          (['p', 'e', 'a', 'k', 'e', 'r', ' '] : List Char) ++ (d ++ ':' :: l') from rfl,
        e1, List.drop_append, List.drop_append,
        show 1 + (l'.takeWhile isPyS).length = (l'.takeWhile isPyS).length + 1 by omega,
        List.drop_succ_cons, drop_len_takeWhile]
      refine ih (l'.dropWhile isPyS) ?_ (RGram_dropWhile_ws hg')
      have h6 := length_dropWhile_ws_le l'
      simp only [List.length_cons, List.length_append] at h
      omega
    | ttag l' hg' =>
      have hts : ∀ c ∈ translationLit, c ≠ 'S' := by decide
      rw [subAll_safe_append (fun c hc rest => speakerM_none_of_head (hts c hc) rest)]
      refine G2.ttag _ (ih l' ?_ hg')
      have h13 : translationLit.length = 13 := rfl
      simp only [List.length_append, h13] at h
      omega
    | ltag a b l' ha hb hg' =>
      have hpre : ∀ c ∈ ['[', a, b, ']'], ∀ rest, speakerMatchLen (c :: rest) = none := by
        intro c hc rest
        refine speakerM_none_of_head ?_ rest
        simp only [List.mem_cons, List.not_mem_nil, or_false] at hc
        rcases hc with rfl | rfl | rfl | rfl
        · decide
        · exact lower_ne_S ha
        · exact lower_ne_S hb
        · decide
      rw [show ('[' :: a :: b :: ']' :: l') = ['[', a, b, ']'] ++ l' from rfl,
        subAll_safe_append hpre]
      refine G2.ltag a b _ ha hb (ih l' ?_ hg')
      simp only [List.length_cons] at h
      omega

/-- Pass 2: removing all `\[Translation\]\s*` matches from a `G2` string
leaves a string in the grammar `G3`. -/
theorem pass2_G3 : ∀ (n : Nat) (l : List Char), l.length ≤ n → G2 l →
    G3 (subAll translationMatchLen l) := by
  intro n
  induction n with
  | zero =>
    intro l h hg
    have : l = [] := List.eq_nil_of_length_eq_zero (Nat.le_zero.1 h)
    subst this
    exact G3.nil
  | succ n ih =>
    intro l h hg
    cases hg with
    | nil => exact G3.nil
    | ch c l' h1 h2 hg' =>
      rw [subAll_cons_none (translationM_none_of_head h2 l')]
      refine G3.ch c _ h1 h2 (ih l' ?_ hg')
      simp only [List.length_cons] at h
      omega
    | ttag l' hg' =>
      have hm : translationMatchLen
          ('[' :: ((['T', 'r', 'a', 'n', 's', 'l', 'a', 't', 'i', 'o', 'n', ']'] : List Char)
            ++ l')) = some (13 + (l'.takeWhile isPyS).length) := translationM_at l'
      rw [show translationLit ++ l' =
          '[' :: ((['T', 'r', 'a', 'n', 's', 'l', 'a', 't', 'i', 'o', 'n', ']'] : List Char)
            ++ l') from rfl, subAll_cons_some hm]
      have e1 : 13 + (l'.takeWhile isPyS).length - 1 =
          (['T', 'r', 'a', 'n', 's', 'l', 'a', 't', 'i', 'o', 'n', ']'] : List Char).length +
            (l'.takeWhile isPyS).length := by
        simp only [List.length_cons, List.length_nil]
        omega
      rw [e1, List.drop_append, drop_len_takeWhile]
      refine ih (l'.dropWhile isPyS) ?_ (G2_dropWhile_ws hg')
      have h6 := length_dropWhile_ws_le l'
      have h13 : translationLit.length = 13 := rfl
      simp only [List.length_append, h13] at h
      omega
    | ltag a b l' ha hb hg' =>
      rw [subAll_cons_none (translationM_none_second (lower_ne_T ha) _)]
      have hpre : ∀ c ∈ [a, b, ']'], ∀ rest, translationMatchLen (c :: rest) = none := by
        intro c hc rest
        refine translationM_none_of_head ?_ rest
        simp only [List.mem_cons, List.not_mem_nil, or_false] at hc
        rcases hc with rfl | rfl | rfl
        · exact lower_ne_lbracket ha
        · exact lower_ne_lbracket hb
        · decide
      rw [show (a :: b :: ']' :: l') = [a, b, ']'] ++ l' from rfl, subAll_safe_append hpre]
      refine G3.ltag a b _ ha hb (ih l' ?_ hg')
      simp only [List.length_cons] at h
      omega

/-- Pass 3: removing all `\[[a-z]{2}\]\s*` matches from a `G3` string leaves
a string with no colons and no opening brackets. -/
theorem pass3_safe : ∀ (n : Nat) (l : List Char), l.length ≤ n → G3 l →
    ∀ c ∈ subAll langTagMatchLen l, c ≠ ':' ∧ c ≠ '[' := by
  intro n
  induction n with
  | zero =>
    intro l h hg c hc
    have : l = [] := List.eq_nil_of_length_eq_zero (Nat.le_zero.1 h)
    subst this
    cases hc
  | succ n ih =>
    intro l h hg c hc
    cases hg with
    | nil => cases hc
    | ch c0 l' h1 h2 hg' =>
      rw [subAll_cons_none (langM_none_of_head h2 l')] at hc
      rcases List.mem_cons.1 hc with rfl | hc
      · exact ⟨h1, h2⟩
      · refine ih l' ?_ hg' c hc
        simp only [List.length_cons] at h
        omega
    | ltag a b l' ha hb hg' =>
      rw [subAll_cons_some (langM_at a b l' ha hb)] at hc
      have e1 : 4 + (l'.takeWhile isPyS).length - 1 =
          ([a, b, ']'] : List Char).length + (l'.takeWhile isPyS).length := by
        simp only [List.length_cons, List.length_nil]
        omega
      rw [show (a :: b :: ']' :: l') = [a, b, ']'] ++ l' from rfl, e1, List.drop_append,
        drop_len_takeWhile] at hc
      refine ih (l'.dropWhile isPyS) ?_ (G3_dropWhile_ws hg') c hc
      have h6 := length_dropWhile_ws_le l'
      simp only [List.length_cons] at h
      omega

theorem hasMatch_eq_false (m : List Char → Option Nat) (bad : Char)
    (hm : ∀ l n, m l = some n → bad ∈ l) :
    ∀ l : List Char, bad ∉ l → hasMatch m l = false := by
  intro l
  induction l with
  | nil =>
    intro h
    unfold hasMatch
    rcases hn : m [] with _ | n
    · rfl
    · exact absurd (hm [] n hn) (by simp)
  | cons c rest ih =>
    intro h
    unfold hasMatch
    rcases hn : m (c :: rest) with _ | n
    · simp only [Option.isSome_none, Bool.false_or]
      exact ih fun hb => h (List.mem_cons_of_mem c hb)
    · exact absurd (hm _ n hn) h

theorem speakerM_some_colon :
    ∀ (l : List Char) (n : Nat), speakerMatchLen l = some n → ':' ∈ l := by
  intro l n h
  unfold speakerMatchLen at h
  split at h
  · cases h
  · next r1 heq =>
    rw [matchLit_some _ _ _ heq]
    refine List.mem_append_right _ ?_
    replace h :
        (if (r1.takeWhile isPyS).length = 0 then none
         else
           if ((r1.drop (r1.takeWhile isPyS).length).takeWhile isPyDigit).length = 0 then
             none
           else
             match (r1.drop (r1.takeWhile isPyS).length).drop
                 ((r1.drop (r1.takeWhile isPyS).length).takeWhile isPyDigit).length with
             | ':' :: r3 => some (7 + (r1.takeWhile isPyS).length +
                 ((r1.drop (r1.takeWhile isPyS).length).takeWhile isPyDigit).length + 1 +
                 (r3.takeWhile isPyS).length)
             | _ => none) = some n := h
    split at h
    · cases h
    · split at h
      · cases h
      · split at h
        · next r3 heq2 =>
          have h1 : ':' ∈ (r1.drop (r1.takeWhile isPyS).length).drop
              ((r1.drop (r1.takeWhile isPyS).length).takeWhile isPyDigit).length := by
            rw [heq2]
            exact List.mem_cons_self ':' r3
          exact List.drop_subset _ _ (List.drop_subset _ _ h1)
        · cases h

theorem translationM_some_lbracket :
    ∀ (l : List Char) (n : Nat), translationMatchLen l = some n → '[' ∈ l := by
  intro l n h
  unfold translationMatchLen at h
  split at h
  · cases h
  · next r heq =>
    rw [matchLit_some _ _ _ heq]
    exact List.mem_append_left _ (by decide)

theorem langM_some_lbracket :
    ∀ (l : List Char) (n : Nat), langTagMatchLen l = some n → '[' ∈ l := by
  intro l n h
  unfold langTagMatchLen at h
  split at h
  · simp
  · cases h

theorem RGram_append_chs {a l : List Char} (ha : ∀ c ∈ a, SafeTextChar c) (hl : RGram l) :
    RGram (a ++ l) := by
  induction a with
  | nil => exact hl
  | cons c a ih =>
    obtain ⟨h1, h2, h3⟩ := ha c (List.mem_cons_self c a)
    exact RGram.ch c _ h1 h2 h3 (ih fun d hd => ha d (List.mem_cons_of_mem c hd))

theorem mem_of_mem_dropWhile {p : Char → Bool} {c : Char} {l : List Char}
    (h : c ∈ l.dropWhile p) : c ∈ l := by
  induction l with
  | nil => exact h
  | cons d rest ih =>
    rw [List.dropWhile_cons] at h
    by_cases hp : p d
    · rw [if_pos hp] at h
      exact List.mem_cons_of_mem d (ih h)
    · rw [if_neg hp] at h
      exact h

theorem RGram_spk_marker_append (curSpk : Option String) {s : String} (h1 : s.data ≠ [])
    (h2 : ∀ c ∈ s.data, isPyDigit c = true) {X : List Char} (hX : RGram X) :
    RGram (((if curSpk = none then "" else "\n\n") ++ "Speaker " ++ s ++ ":").data ++ X) := by
  by_cases hcs : curSpk = none
  · rw [if_pos hcs]
    have e : (("" ++ "Speaker " ++ s ++ ":").data) ++ X =
        'S' :: 'p' :: 'e' :: 'a' :: 'k' :: 'e' :: 'r' :: ' ' :: (s.data ++ ':' :: X) := by
      simp only [str_data_append, List.append_assoc]
      rfl
    rw [e]
    exact RGram.marker s.data X h1 h2 hX
  · rw [if_neg hcs]
    have e : (("\n\n" ++ "Speaker " ++ s ++ ":").data) ++ X =
        '\n' :: '\n' ::
          ('S' :: 'p' :: 'e' :: 'a' :: 'k' :: 'e' :: 'r' :: ' ' :: (s.data ++ ':' :: X)) := by
      simp only [str_data_append, List.append_assoc]
      rfl
    rw [e]
    exact RGram.ch _ _ (by decide) (by decide) (by decide)
      (RGram.ch _ _ (by decide) (by decide) (by decide) (RGram.marker s.data X h1 h2 hX))

theorem RGram_tag_append {lg : String} (hl2 : lg.data.length = 2)
    (hlow : ∀ c ∈ lg.data, isAsciiLower c = true) (trpre : String)
    (htr : trpre = "" ∨ trpre = "[Translation] ") {txt : String}
    (htxt : ∀ c ∈ txt.data, SafeTextChar c) {X : List Char} (hX : RGram X) :
    RGram (("\n" ++ trpre ++ "[" ++ lg ++ "] " ++ pyLStrip txt).data ++ X) := by
  obtain ⟨a, b, hab⟩ : ∃ a b, lg.data = [a, b] := by
    rcases e : lg.data with _ | ⟨a, rest⟩
    · rw [e] at hl2
      cases hl2
    · rcases rest with _ | ⟨b, rest2⟩
      · rw [e] at hl2
        cases hl2
      · rcases rest2 with _ | ⟨c, rest3⟩
        · exact ⟨a, b, rfl⟩
        · rw [e] at hl2
          simp at hl2
  have ha := hlow a (by rw [hab]; exact List.mem_cons_self _ _)
  have hb := hlow b (by rw [hab]; simp)
  have hlstrip : ∀ c ∈ (pyLStrip txt).data, SafeTextChar c := by
    intro c hc
    exact htxt c (mem_of_mem_dropWhile hc)
  rcases htr with rfl | rfl
  · have e : (("\n" ++ "" ++ "[" ++ lg ++ "] " ++ pyLStrip txt).data ++ X) =
        '\n' :: '[' :: a :: b :: ']' :: ' ' :: ((pyLStrip txt).data ++ X) := by
      simp only [str_data_append, List.append_assoc, hab]
      rfl
    rw [e]
    exact RGram.ch _ _ (by decide) (by decide) (by decide)
      (RGram.ltag a b _ ha hb (RGram.ch _ _ (by decide) (by decide) (by decide)
        (RGram_append_chs hlstrip hX)))
  · have e : (("\n" ++ "[Translation] " ++ "[" ++ lg ++ "] " ++ pyLStrip txt).data ++ X) =
        '\n' :: (translationLit ++ (' ' :: '[' :: a :: b :: ']' :: ' ' ::
          ((pyLStrip txt).data ++ X))) := by
      simp only [str_data_append, List.append_assoc, hab, translationLit]
      rfl
    rw [e]
    exact RGram.ch _ _ (by decide) (by decide) (by decide)
      (RGram.ttag _ (RGram.ch _ _ (by decide) (by decide) (by decide)
        (RGram.ltag a b _ ha hb (RGram.ch _ _ (by decide) (by decide) (by decide)
          (RGram_append_chs hlstrip hX)))))

theorem trpre_or (tr : Option String) :
    (if tr = some "translation" then "[Translation] " else "") = "" ∨
    (if tr = some "translation" then "[Translation] " else "") = "[Translation] " := by
  by_cases h : tr = some "translation"
  · exact Or.inr (if_pos h)
  · exact Or.inl (if_neg h)

theorem renderStep_RGram (t : Token) (curSpk curLang : Option String) {tail : List Char}
    (hg : GoodToken t) (htail : RGram tail) :
    RGram ((renderStep t curSpk curLang).1.data ++ tail) := by
  obtain ⟨txt, fin, spk0, lang0, tr⟩ := t
  obtain ⟨htxt, hspk, hlang⟩ := hg
  replace htxt : ∀ c ∈ txt.data, SafeTextChar c := htxt
  rcases spk0 with _ | s
  · rcases lang0 with _ | lg
    · have e : renderStep ⟨txt, fin, none, none, tr⟩ curSpk curLang =
          ("" ++ txt, curSpk, curLang) := rfl
      rw [e]
      exact RGram_append_chs htxt htail
    · replace hlang : lg.data.length = 2 ∧ ∀ c ∈ lg.data, isAsciiLower c = true := hlang
      by_cases hc : some lg ≠ curLang
      · have e : renderStep ⟨txt, fin, none, some lg, tr⟩ curSpk curLang =
            ("" ++ "\n" ++ (if tr = some "translation" then "[Translation] " else "")
              ++ "[" ++ lg ++ "] " ++ pyLStrip txt, curSpk, some lg) := by
          unfold renderStep speakerPart
          simp only [if_pos hc]
        rw [e]
        exact RGram_tag_append hlang.1 hlang.2 _ (trpre_or tr) htxt htail
      · have e : renderStep ⟨txt, fin, none, some lg, tr⟩ curSpk curLang =
            ("" ++ txt, curSpk, curLang) := by
          unfold renderStep speakerPart
          simp only [if_neg hc]
        rw [e]
        exact RGram_append_chs htxt htail
  · replace hspk : s.data ≠ [] ∧ ∀ c ∈ s.data, isPyDigit c = true := hspk
    by_cases hsne : some s ≠ curSpk
    · rcases lang0 with _ | lg
      · have e : renderStep ⟨txt, fin, some s, none, tr⟩ curSpk curLang =
            ((if curSpk = none then "" else "\n\n") ++ "Speaker " ++ s ++ ":" ++ txt,
             some s, none) := by
          unfold renderStep speakerPart
          simp only [if_pos hsne]
        rw [e]
        have e2 : (((if curSpk = none then "" else "\n\n") ++ "Speaker " ++ s ++ ":" ++
            txt).data ++ tail) =
            ((if curSpk = none then "" else "\n\n") ++ "Speaker " ++ s ++ ":").data ++
              (txt.data ++ tail) := by
          simp only [str_data_append, List.append_assoc]
        rw [e2]
        exact RGram_spk_marker_append curSpk hspk.1 hspk.2 (RGram_append_chs htxt htail)
      · replace hlang : lg.data.length = 2 ∧ ∀ c ∈ lg.data, isAsciiLower c = true := hlang
        have e : renderStep ⟨txt, fin, some s, some lg, tr⟩ curSpk curLang =
            ((if curSpk = none then "" else "\n\n") ++ "Speaker " ++ s ++ ":" ++ "\n" ++
              (if tr = some "translation" then "[Translation] " else "") ++
              "[" ++ lg ++ "] " ++ pyLStrip txt, some s, some lg) := by
          unfold renderStep speakerPart
          simp only [if_pos hsne]
          rw [if_pos (Option.some_ne_none lg)]
        rw [e]
        have e2 : (((if curSpk = none then "" else "\n\n") ++ "Speaker " ++ s ++ ":" ++ "\n" ++
            (if tr = some "translation" then "[Translation] " else "") ++
            "[" ++ lg ++ "] " ++ pyLStrip txt).data ++ tail) =
            ((if curSpk = none then "" else "\n\n") ++ "Speaker " ++ s ++ ":").data ++
              (("\n" ++ (if tr = some "translation" then "[Translation] " else "") ++
                "[" ++ lg ++ "] " ++ pyLStrip txt).data ++ tail) := by
          simp only [str_data_append, List.append_assoc]
        rw [e2]
        exact RGram_spk_marker_append curSpk hspk.1 hspk.2
          (RGram_tag_append hlang.1 hlang.2 _ (trpre_or tr) htxt htail)
    · rcases lang0 with _ | lg
      · have e : renderStep ⟨txt, fin, some s, none, tr⟩ curSpk curLang =
            ("" ++ txt, curSpk, curLang) := by
          unfold renderStep speakerPart
          simp only [if_neg hsne]
        rw [e]
        exact RGram_append_chs htxt htail
      · replace hlang : lg.data.length = 2 ∧ ∀ c ∈ lg.data, isAsciiLower c = true := hlang
        by_cases hc : some lg ≠ curLang
        · have e : renderStep ⟨txt, fin, some s, some lg, tr⟩ curSpk curLang =
              ("" ++ "\n" ++ (if tr = some "translation" then "[Translation] " else "")
                ++ "[" ++ lg ++ "] " ++ pyLStrip txt, curSpk, some lg) := by
            unfold renderStep speakerPart
            simp only [if_neg hsne, if_pos hc]
          rw [e]
          exact RGram_tag_append hlang.1 hlang.2 _ (trpre_or tr) htxt htail
        · have e : renderStep ⟨txt, fin, some s, some lg, tr⟩ curSpk curLang =
              ("" ++ txt, curSpk, curLang) := by
            unfold renderStep speakerPart
            simp only [if_neg hsne, if_neg hc]
          rw [e]
          exact RGram_append_chs htxt htail

theorem renderOut_RGram : ∀ (ts : List Token) (curSpk curLang : Option String)
    (tail : List Char), (∀ t ∈ ts, GoodToken t) → RGram tail →
    RGram ((renderAux ts curSpk curLang).1.data ++ tail) := by
  intro ts
  induction ts with
  | nil =>
    intro _ _ tail _ htail
    exact htail
  | cons t rest ih =>
    intro curSpk curLang tail hg htail
    by_cases ht : t.text = ""
    · rw [renderAux_cons, if_pos ht]
      exact ih _ _ tail (fun u hu => hg u (List.mem_cons_of_mem t hu)) htail
    · rw [renderAux_cons, if_neg ht]
      show RGram (((renderStep t curSpk curLang).1 ++
        (renderAux rest (renderStep t curSpk curLang).2.1
          (renderStep t curSpk curLang).2.2).1).data ++ tail)
      rw [str_data_append, List.append_assoc]
      exact renderStep_RGram t curSpk curLang (hg t (List.mem_cons_self t rest))
        (ih _ _ tail (fun u hu => hg u (List.mem_cons_of_mem t hu)) htail)

theorem pySplitAux_words : ∀ (l acc : List Char), (∀ c ∈ acc, isPyS c = false) →
    ∀ w ∈ pySplitAux l acc, w ≠ [] ∧ ∀ c ∈ w, isPyS c = false ∧ (c ∈ l ∨ c ∈ acc) := by
  intro l
  induction l with
  | nil =>
    intro acc hacc w hw
    unfold pySplitAux at hw
    by_cases ha : acc = []
    · rw [if_pos ha] at hw
      cases hw
    · rw [if_neg ha] at hw
      simp only [List.mem_singleton] at hw
      subst hw
      refine ⟨by simpa using ha, fun c hc => ?_⟩
      have hca : c ∈ acc := by simpa using hc
      exact ⟨hacc c hca, Or.inr hca⟩
  | cons d rest ih =>
    intro acc hacc w hw
    unfold pySplitAux at hw
    by_cases hd : isPyS d
    · rw [if_pos hd] at hw
      have hsub : ∀ w ∈ pySplitAux rest [], w ≠ [] ∧
          ∀ c ∈ w, isPyS c = false ∧ (c ∈ d :: rest ∨ c ∈ acc) := by
        intro u hu
        have h0 := ih [] (by simp) u hu
        refine ⟨h0.1, fun c hc => ?_⟩
        obtain ⟨h1, h2⟩ := h0.2 c hc
        rcases h2 with h2 | h2
        · exact ⟨h1, Or.inl (List.mem_cons_of_mem d h2)⟩
        · cases h2
      by_cases ha : acc = []
      · rw [if_pos ha] at hw
        exact hsub w hw
      · rw [if_neg ha] at hw
        rcases List.mem_cons.1 hw with rfl | hw
        · refine ⟨by simpa using ha, fun c hc => ?_⟩
          have hca : c ∈ acc := by simpa using hc
          exact ⟨hacc c hca, Or.inr hca⟩
        · exact hsub w hw
    · rw [if_neg hd] at hw
      have hacc2 : ∀ c ∈ d :: acc, isPyS c = false := by
        intro c hc
        rcases List.mem_cons.1 hc with rfl | hc
        · simpa using hd
        · exact hacc c hc
      have h0 := ih (d :: acc) hacc2 w hw
      refine ⟨h0.1, fun c hc => ?_⟩
      obtain ⟨h1, h2⟩ := h0.2 c hc
      refine ⟨h1, ?_⟩
      rcases h2 with h2 | h2
      · exact Or.inl (List.mem_cons_of_mem d h2)
      · rcases List.mem_cons.1 h2 with rfl | h2
        · exact Or.inl (List.mem_cons_self _ _)
        · exact Or.inr h2

theorem joinWords_mem : ∀ (ws : List (List Char)) (c : Char), c ∈ joinWords ws →
    (∃ w ∈ ws, c ∈ w) ∨ c = ' ' := by
  intro ws
  induction ws with
  | nil =>
    intro c hc
    cases hc
  | cons w ws ih =>
    intro c hc
    cases ws with
    | nil => exact Or.inl ⟨w, List.mem_cons_self _ _, hc⟩
    | cons w2 ws2 =>
      replace hc : c ∈ w ++ ' ' :: joinWords (w2 :: ws2) := hc
      rcases List.mem_append.1 hc with h | h
      · exact Or.inl ⟨w, List.mem_cons_self _ _, h⟩
      · rcases List.mem_cons.1 h with rfl | h
        · exact Or.inr rfl
        · rcases ih c h with ⟨u, hu, hcu⟩ | h
          · exact Or.inl ⟨u, List.mem_cons_of_mem w hu, hcu⟩
          · exact Or.inr h

theorem wsRunOk_cons (c : Char) (rest : List Char) :
    wsRunOk (c :: rest) =
      if isPyS c then
        ((c = ' ') && (match rest with | [] => false | d :: _ => !isPyS d) && wsRunOk rest)
      else wsRunOk rest := rfl

theorem wsfree_wsRunOk : ∀ l : List Char, (∀ c ∈ l, isPyS c = false) →
    wsRunOk l = true := by
  intro l
  induction l with
  | nil => intro _; rfl
  | cons c rest ih =>
    intro h
    have hc : isPyS c = false := h c (List.mem_cons_self c rest)
    rw [wsRunOk_cons, if_neg (by simp [hc])]
    exact ih fun d hd => h d (List.mem_cons_of_mem c hd)

theorem wsRunOk_append_wsfree : ∀ (w r : List Char), (∀ c ∈ w, isPyS c = false) →
    wsRunOk (w ++ r) = wsRunOk r := by
  intro w
  induction w with
  | nil => intro r _; rfl
  | cons c w ih =>
    intro r h
    have hc : isPyS c = false := h c (List.mem_cons_self c w)
    rw [List.cons_append, wsRunOk_cons, if_neg (by simp [hc])]
    exact ih r fun d hd => h d (List.mem_cons_of_mem c hd)

theorem wsRunOk_cons_space (d : Char) (rest : List Char) (hd : isPyS d = false) :
    wsRunOk (' ' :: d :: rest) = wsRunOk (d :: rest) := by
  rw [wsRunOk_cons, if_pos (by decide)]
  simp [hd]

theorem wsRunOk_last : ∀ l : List Char, wsRunOk l = true →
    ∀ c, l.getLast? = some c → isPyS c = false := by
  intro l
  induction l with
  | nil =>
    intro _ c hc
    cases hc
  | cons d rest ih =>
    intro h c hc
    cases rest with
    | nil =>
      replace hc : some d = some c := hc
      cases hc
      by_cases hd : isPyS d
      · exfalso
        rw [wsRunOk_cons, if_pos (by simpa using hd)] at h
        simp at h
      · simpa using hd
    | cons e rest2 =>
      have h2 : wsRunOk (e :: rest2) = true := by
        by_cases hd : isPyS d
        · rw [wsRunOk_cons, if_pos (by simpa using hd)] at h
          simp only [Bool.and_eq_true] at h
          exact h.2
        · rw [wsRunOk_cons, if_neg (by simpa using hd)] at h
          exact h
      exact ih h2 c (by rw [← List.getLast?_cons_cons]; exact hc)

theorem joinWords_head_not_ws : ∀ ws : List (List Char), ws ≠ [] →
    (∀ w ∈ ws, w ≠ [] ∧ ∀ c ∈ w, isPyS c = false) →
    ∃ d rest, joinWords ws = d :: rest ∧ isPyS d = false := by
  intro ws
  cases ws with
  | nil =>
    intro h
    exact absurd rfl h
  | cons w ws2 =>
    intro _ hws
    obtain ⟨hne, hfree⟩ := hws w (List.mem_cons_self _ _)
    rcases hw : w with _ | ⟨d, w'⟩
    · exact absurd hw hne
    · cases ws2 with
      | nil =>
        exact ⟨d, w', rfl, hfree d (by rw [hw]; exact List.mem_cons_self _ _)⟩
      | cons w2 ws3 =>
        exact ⟨d, w' ++ ' ' :: joinWords (w2 :: ws3), rfl,
          hfree d (by rw [hw]; exact List.mem_cons_self _ _)⟩

theorem wsRunOk_joinWords : ∀ ws : List (List Char),
    (∀ w ∈ ws, w ≠ [] ∧ ∀ c ∈ w, isPyS c = false) → wsRunOk (joinWords ws) = true := by
  intro ws
  induction ws with
  | nil =>
    intro _
    rfl
  | cons w ws2 ih =>
    intro hws
    obtain ⟨hne, hfree⟩ := hws w (List.mem_cons_self _ _)
    cases ws2 with
    | nil => exact wsfree_wsRunOk w hfree
    | cons w2 ws3 =>
      rw [show joinWords (w :: w2 :: ws3) = w ++ ' ' :: joinWords (w2 :: ws3) from rfl,
        wsRunOk_append_wsfree w _ hfree]
      obtain ⟨d, rest, hj, hd⟩ := joinWords_head_not_ws (w2 :: ws3) (by simp)
        fun u hu => hws u (List.mem_cons_of_mem w hu)
      rw [hj, wsRunOk_cons_space d rest hd, ← hj]
      exact ih fun u hu => hws u (List.mem_cons_of_mem w hu)

theorem strip_eq_self {l : List Char} (hhead : ∀ c, l.head? = some c → isPyS c = false)
    (hlast : ∀ c, l.getLast? = some c → isPyS c = false) : pyStripChars l = l := by
  unfold pyStripChars
  have h1 : l.dropWhile isPyS = l := by
    cases l with
    | nil => rfl
    | cons c rest =>
      rw [List.dropWhile_cons, if_neg (by simp [hhead c rfl])]
  rw [h1]
  have h2 : l.reverse.dropWhile isPyS = l.reverse := by
    rcases hr : l.reverse with _ | ⟨c, rest⟩
    · rfl
    · have hlc : l.getLast? = some c := by
        rw [← List.head?_reverse, hr]
        rfl
      rw [List.dropWhile_cons, if_neg (by simp [hlast c hlc])]
  rw [h2, List.reverse_reverse]

theorem mem_strip_subset {c : Char} {l : List Char} (h : c ∈ pyStripChars l) : c ∈ l := by
  unfold pyStripChars at h
  have h1 : c ∈ (l.dropWhile isPyS).reverse.dropWhile isPyS := by
    simpa using h
  have h2 : c ∈ (l.dropWhile isPyS).reverse := mem_of_mem_dropWhile h1
  have h3 : c ∈ l.dropWhile isPyS := by
    simpa using h2
  exact mem_of_mem_dropWhile h3

/-- The whitespace-collapsing tail of `_clean_transcription`
(`" ".join(text.split())` followed by `strip()`) always produces output with
single internal spaces, no other whitespace, and nothing at the ends, using
only characters of the input plus the space separator. -/
theorem collapse_ok (l : List Char) :
    collapsedOk (pyStripChars (joinWords (pySplitAux l []))) = true ∧
    ∀ c ∈ pyStripChars (joinWords (pySplitAux l [])), c ∈ l ∨ c = ' ' := by
  have hwords : ∀ w ∈ pySplitAux l [], w ≠ [] ∧ ∀ c ∈ w, isPyS c = false ∧
      (c ∈ l ∨ c ∈ ([] : List Char)) := pySplitAux_words l [] (by simp)
  have hgood : ∀ w ∈ pySplitAux l [], w ≠ [] ∧ ∀ c ∈ w, isPyS c = false := by
    intro w hw
    exact ⟨(hwords w hw).1, fun c hc => ((hwords w hw).2 c hc).1⟩
  have hrun : wsRunOk (joinWords (pySplitAux l [])) = true :=
    wsRunOk_joinWords _ hgood
  have hmemj : ∀ c ∈ joinWords (pySplitAux l []), c ∈ l ∨ c = ' ' := by
    intro c hc
    rcases joinWords_mem _ c hc with ⟨w, hw, hcw⟩ | h
    · rcases ((hwords w hw).2 c hcw).2 with h | h
      · exact Or.inl h
      · cases h
    · exact Or.inr h
  by_cases hsplit : pySplitAux l [] = []
  · rw [hsplit]
    exact ⟨rfl, fun c hc => absurd hc (List.not_mem_nil c)⟩
  · obtain ⟨d, rest, hj, hd⟩ := joinWords_head_not_ws _ hsplit hgood
    have hhead : ∀ c, (joinWords (pySplitAux l [])).head? = some c → isPyS c = false := by
      intro c hc
      rw [hj] at hc
      replace hc : some d = some c := hc
      cases hc
      exact hd
    have hlast : ∀ c, (joinWords (pySplitAux l [])).getLast? = some c → isPyS c = false :=
      fun c hc => wsRunOk_last _ hrun c hc
    have hstrip : pyStripChars (joinWords (pySplitAux l [])) =
        joinWords (pySplitAux l []) := strip_eq_self hhead hlast
    rw [hstrip]
    refine ⟨?_, hmemj⟩
    have hrun2 : wsRunOk (d :: rest) = true := by
      rw [← hj]
      exact hrun
    unfold collapsedOk
    rw [hj]
    simp [hd, hrun2]

/-- Counterexample for C4: a token whose own text contains marker-like
material re-forms a `Speaker N:` marker under the sanitizer's left-to-right
removal passes, so the cleaned output still matches the speaker-marker
pattern. -/
theorem C4_counterexample_marker_reformed :
    _clean_transcription (_render_tokens
        [{ text := "Speaker Speaker 1:1:", speaker := some "1", language := some "en" }] []) =
      "Speaker 1:" ∧
    hasMatch speakerMatchLen ((_clean_transcription (_render_tokens
        [{ text := "Speaker Speaker 1:1:", speaker := some "1", language := some "en" }]
        [])).data) = true :=
  ⟨rfl, rfl⟩

/-- C4 (amended): for token lists whose texts contain no colon, no capital S
and no opening bracket (so token text cannot combine with inserted markers
into marker-like patterns), whose speakers are non-empty digit ids and whose
languages are two-letter lowercase codes, the sanitized rendering contains no
substring matching the speaker-marker pattern, the translation-marker
pattern, or the bracketed language-tag pattern, and its whitespace is
collapsed to single internal spaces with no leading or trailing
whitespace. -/
theorem C4_clean_render_no_markers_and_collapsed
    (fs nfs : List Token) (h : ∀ t ∈ fs ++ nfs, GoodToken t) :
    hasMatch speakerMatchLen ((_clean_transcription (_render_tokens fs nfs)).data) = false ∧
    hasMatch translationMatchLen
      ((_clean_transcription (_render_tokens fs nfs)).data) = false ∧
    hasMatch langTagMatchLen ((_clean_transcription (_render_tokens fs nfs)).data) = false ∧
    collapsedOk ((_clean_transcription (_render_tokens fs nfs)).data) = true := by
  have hg : RGram ((_render_tokens fs nfs).data) := by
    have h0 := renderOut_RGram (fs ++ nfs) none none [] h RGram.nil
    simpa using h0
  have h1 : G2 (subAll speakerMatchLen (_render_tokens fs nfs).data) :=
    pass1_G2 _ _ le_rfl hg
  have h2 : G3 (subAll translationMatchLen
      (subAll speakerMatchLen (_render_tokens fs nfs).data)) :=
    pass2_G3 _ _ le_rfl h1
  have h3 : ∀ c ∈ subAll langTagMatchLen (subAll translationMatchLen
      (subAll speakerMatchLen (_render_tokens fs nfs).data)), c ≠ ':' ∧ c ≠ '[' :=
    pass3_safe _ _ le_rfl h2
  have h4 : ∀ c ∈ subAll endMatchLen (subAll langTagMatchLen (subAll translationMatchLen
      (subAll speakerMatchLen (_render_tokens fs nfs).data))), c ≠ ':' ∧ c ≠ '[' := by
    intro c hc
    exact h3 c (subAll_subset endMatchLen _ _ le_rfl c hc)
  have hout : (_clean_transcription (_render_tokens fs nfs)).data =
      pyStripChars (joinWords (pySplitAux (subAll endMatchLen (subAll langTagMatchLen
        (subAll translationMatchLen
          (subAll speakerMatchLen (_render_tokens fs nfs).data)))) [])) := rfl
  have hcol := collapse_ok (subAll endMatchLen (subAll langTagMatchLen
    (subAll translationMatchLen (subAll speakerMatchLen (_render_tokens fs nfs).data))))
  have hmem : ∀ c ∈ (_clean_transcription (_render_tokens fs nfs)).data,
      c ≠ ':' ∧ c ≠ '[' := by
    intro c hc
    rw [hout] at hc
    rcases hcol.2 c hc with hcl | rfl
    · exact h4 c hcl
    · exact ⟨by decide, by decide⟩
  refine ⟨?_, ?_, ?_, ?_⟩
  · refine hasMatch_eq_false _ ':' speakerM_some_colon _ ?_
    intro hcmem
    exact (hmem ':' hcmem).1 rfl
  · refine hasMatch_eq_false _ '[' translationM_some_lbracket _ ?_
    intro hcmem
    exact (hmem '[' hcmem).2 rfl
  · refine hasMatch_eq_false _ '[' langM_some_lbracket _ ?_
    intro hcmem
    exact (hmem '[' hcmem).2 rfl
  · rw [hout]
    exact hcol.1

/-- Witness for C4 at a concrete two-speaker, two-language token list with a
translation token. -/
theorem C4_clean_render_no_markers_and_collapsed_witness :
    (∀ t ∈ ([⟨"hello there", true, some "1", some "en", none⟩,
        ⟨"hola", false, some "2", some "es", some "translation"⟩] : List Token),
      GoodToken t) ∧
    hasMatch speakerMatchLen ((_clean_transcription (_render_tokens
      [⟨"hello there", true, some "1", some "en", none⟩]
      [⟨"hola", false, some "2", some "es", some "translation"⟩])).data) = false ∧
    collapsedOk ((_clean_transcription (_render_tokens
      [⟨"hello there", true, some "1", some "en", none⟩]
      [⟨"hola", false, some "2", some "es", some "translation"⟩])).data) = true := by
  have h := C4_clean_render_no_markers_and_collapsed
    [⟨"hello there", true, some "1", some "en", none⟩]
    [⟨"hola", false, some "2", some "es", some "translation"⟩] (by decide)
  exact ⟨by decide, h.1, h.2.2.2⟩

end Soniox
